import Mathlib

/-!
Verification of the core maze-generation pipeline of `make-maze.c`
(hexagonal-maze generator): grid/wall enumeration, the disjoint-set
forest (`base`/`unify`), the three-pass bucket shuffle
(`shuffle_walls`), the randomized-Kruskal carving loop (`create_maze`),
seeding (`init_rand`), and the weighted tree-diameter analysis
(`analyse_tree`).

Cells of an `m × n` hexagonal grid are flat indices `i*n + j`
(column `i`, row `j`).  A wall is an ordered pair `(lower, higher)`
of the two cell indices stored in the C `wall` struct fields.
-/

/-- A wall record: the `lower` and `higher` fields of the C `wall` struct
(the two neighbouring cells).  Despite the names, for "northwest" walls the
`higher` field holds the numerically smaller index, exactly as in the C code. -/
abbrev Wall := Nat × Nat

/-- The walls generated while visiting cell `(i, j)` of an `m × n` grid:
in source order, the Northwest wall (if `i>0` and (`j<n-1` or `i` even)),
the North wall (if `j<n-1`), and the Northeast wall (if `i<m-1` and
(`j<n-1` or `i` even)); `this = i*n + j`. -/
def wallsAt (m n i j : Nat) : List Wall :=
  (if 0 < i ∧ (j < n - 1 ∨ i % 2 = 0) then [(i * n + j, (i * n + j - n) + i % 2)] else [])
  ++ (if j < n - 1 then [(i * n + j, i * n + j + 1)] else [])
  ++ (if i + 1 < m ∧ (j < n - 1 ∨ i % 2 = 0) then [(i * n + j, i * n + j + n + i % 2)] else [])

/-- `init_walls m n`: every candidate wall of the `m × n` hexagonal grid, in
the order the doubly nested loop of the C function `init_walls` emits them. -/
def init_walls (m n : Nat) : List Wall :=
  (List.range m).flatMap (fun i => (List.range n).flatMap (fun j => wallsAt m n i j))

/-- Number of walls emitted at cell `(i, j)`. -/
theorem length_wallsAt (m n i j : Nat) :
    (wallsAt m n i j).length =
      (if 0 < i ∧ (j < n - 1 ∨ i % 2 = 0) then 1 else 0)
      + (if j < n - 1 then 1 else 0)
      + (if i + 1 < m ∧ (j < n - 1 ∨ i % 2 = 0) then 1 else 0) := by
  unfold wallsAt
  split <;> split <;> split <;> simp

theorem sum_indicator_lt (n : Nat) :
    (∑ j ∈ Finset.range n, if j < n - 1 then 1 else 0) = n - 1 := by
  rw [Finset.sum_boole]
  have : (Finset.range n).filter (fun j => j < n - 1) = Finset.range (n - 1) := by
    ext x; simp; omega
  simp [this]

/-- Walls emitted over one whole column `i` (summing over `j < n`), with `2 ≤ n`. -/
theorem col_count (m n i : Nat) (hn : 2 ≤ n) :
    ((List.range n).flatMap (fun j => wallsAt m n i j)).length =
      (if 0 < i then n - i % 2 else 0) + (n - 1)
      + (if i + 1 < m then n - i % 2 else 0) := by
  rw [List.length_flatMap]
  simp only [Function.comp_def]
  show (∑ j ∈ Finset.range n, (wallsAt m n i j).length) = _
  simp only [length_wallsAt]
  rw [Finset.sum_add_distrib, Finset.sum_add_distrib, sum_indicator_lt]
  rcases eq_or_ne (i % 2) 0 with hp | hp
  · -- even column: the (j < n-1 ∨ i % 2 = 0) condition is always true
    have h1 : (∑ j ∈ Finset.range n, if 0 < i ∧ (j < n - 1 ∨ i % 2 = 0) then 1 else 0)
        = if 0 < i then n else 0 := by
      rcases Nat.eq_zero_or_pos i with hi | hi
      · simp [hi]
      · simp [hi, hp]
    have h3 : (∑ j ∈ Finset.range n, if i + 1 < m ∧ (j < n - 1 ∨ i % 2 = 0) then 1 else 0)
        = if i + 1 < m then n else 0 := by
      rcases Nat.lt_or_ge (i+1) m with hi | hi
      · simp [hi, hp]
      · simp [Nat.not_lt.mpr hi]
    rw [h1, h3, hp]
    rcases Nat.eq_zero_or_pos i with hi | hi <;> rcases Nat.lt_or_ge (i+1) m with hm' | hm' <;>
      simp [hi, hm', Nat.not_lt.mpr] <;> omega
  · -- odd column: the condition reduces to j < n-1
    have h1 : (∑ j ∈ Finset.range n, if 0 < i ∧ (j < n - 1 ∨ i % 2 = 0) then 1 else 0)
        = if 0 < i then n - 1 else 0 := by
      rcases Nat.eq_zero_or_pos i with hi | hi
      · simp [hi]
      · simp only [hi, true_and, hp, or_false]
        exact sum_indicator_lt n
    have h3 : (∑ j ∈ Finset.range n, if i + 1 < m ∧ (j < n - 1 ∨ i % 2 = 0) then 1 else 0)
        = if i + 1 < m then n - 1 else 0 := by
      rcases Nat.lt_or_ge (i+1) m with hi | hi
      · simp only [hi, true_and, hp, or_false]
        exact sum_indicator_lt n
      · simp [Nat.not_lt.mpr hi]
    rw [h1, h3]
    have hp1 : i % 2 = 1 := by omega
    rcases Nat.eq_zero_or_pos i with hi | hi <;> rcases Nat.lt_or_ge (i+1) m with hm' | hm' <;>
      simp [hi, hm', Nat.not_lt.mpr, hp1] <;> omega

/-- The total number of candidate walls: `(m-1)*(2n-1) + m*(n-1) = 3mn-2m-2n+1`,
stated without subtraction. -/
theorem init_walls_length_add (m n : Nat) (hm : 2 ≤ m) (hn : 2 ≤ n) :
    (init_walls m n).length + 2 * m + 2 * n = 3 * m * n + 1 := by
  unfold init_walls
  rw [List.length_flatMap]
  simp only [Function.comp_def]
  show (∑ i ∈ Finset.range m, ((List.range n).flatMap (fun j => wallsAt m n i j)).length)
      + 2 * m + 2 * n = _
  have hcols : ∀ i ∈ Finset.range m,
      ((List.range n).flatMap (fun j => wallsAt m n i j)).length
      = (if 0 < i then n - i % 2 else 0) + (n - 1) + (if i + 1 < m then n - i % 2 else 0) := by
    intro i _
    exact col_count m n i hn
  rw [Finset.sum_congr rfl hcols]
  rw [Finset.sum_add_distrib, Finset.sum_add_distrib]
  -- the three sums
  obtain ⟨a, rfl⟩ : ∃ a, m = a + 1 := ⟨m - 1, by omega⟩
  have s1 : (∑ i ∈ Finset.range (a+1), if 0 < i then n - i % 2 else 0)
      = ∑ i ∈ Finset.range a, (n - (i+1) % 2) := by
    rw [Finset.sum_range_succ']
    simp
  have s3 : (∑ i ∈ Finset.range (a+1), if i + 1 < a + 1 then n - i % 2 else 0)
      = ∑ i ∈ Finset.range a, (n - i % 2) := by
    rw [Finset.sum_range_succ]
    simp only [Nat.lt_irrefl, if_false, add_zero, Nat.add_lt_add_iff_right]
    exact Finset.sum_congr rfl (by intro i hi; simp at hi; simp [hi])
  have s2 : (∑ _i ∈ Finset.range (a+1), (n - 1)) = (a+1) * (n-1) := by
    simp [Finset.sum_const]
  rw [s1, s3, s2]
  have spair : (∑ i ∈ Finset.range a, (n - (i+1) % 2)) + (∑ i ∈ Finset.range a, (n - i % 2))
      = a * (2 * n - 1) := by
    rw [← Finset.sum_add_distrib]
    have : ∀ i ∈ Finset.range a, (n - (i+1) % 2) + (n - i % 2) = 2 * n - 1 := by
      intro i _
      omega
    rw [Finset.sum_congr rfl this]
    simp [Finset.sum_const]
  -- rearrange and finish by arithmetic
  obtain ⟨b, rfl⟩ : ∃ b, n = b + 2 := ⟨n - 2, by omega⟩
  have e1 : b + 2 - 1 = b + 1 := by omega
  have e2 : 2 * (b + 2) - 1 = 2 * b + 3 := by omega
  rw [e1] at *
  calc ∑ i ∈ Finset.range a, (b + 2 - (i + 1) % 2) + (a + 1) * (b + 1)
        + ∑ i ∈ Finset.range a, (b + 2 - i % 2) + 2 * (a + 1) + 2 * (b + 2)
      = (∑ i ∈ Finset.range a, (b + 2 - (i + 1) % 2) + ∑ i ∈ Finset.range a, (b + 2 - i % 2))
        + (a + 1) * (b + 1) + 2 * (a + 1) + 2 * (b + 2) := by ring
    _ = a * (2 * (b + 2) - 1) + (a + 1) * (b + 1) + 2 * (a + 1) + 2 * (b + 2) := by rw [spair]
    _ = a * (2 * b + 3) + (a + 1) * (b + 1) + 2 * (a + 1) + 2 * (b + 2) := by rw [e2]
    _ = 3 * (a + 1) * (b + 2) + 1 := by ring

/-- The closed-form wall count, in the exact form of the C assertion
`3*m*n-m-m-n-n+1` (equal to `(m-1)*(2n-1) + m*(n-1)`). -/
theorem init_walls_length (m n : Nat) (hm : 2 ≤ m) (hn : 2 ≤ n) :
    (init_walls m n).length = 3 * m * n - 2 * m - 2 * n + 1 := by
  have h := init_walls_length_add m n hm hn
  have h1 : 2 * n ≤ m * n := Nat.mul_le_mul_right n hm
  have h2 : 2 * m ≤ m * n := by
    calc 2 * m = m * 2 := by ring
    _ ≤ m * n := Nat.mul_le_mul_left m hn
  have h3 : 3 * m * n = m * n + m * n + m * n := by ring
  rw [h3] at h ⊢
  generalize m * n = k at h h1 h2 ⊢
  omega

theorem mem_ite_singleton {c : Prop} [Decidable c] {x w : Wall} :
    (w ∈ if c then [x] else []) ↔ c ∧ w = x := by
  split <;> simp_all

/-- Membership in the per-cell wall triple. -/
theorem mem_wallsAt {m n i j : Nat} {w : Wall} :
    w ∈ wallsAt m n i j ↔
      ((0 < i ∧ (j < n - 1 ∨ i % 2 = 0) ∧ w = (i*n+j, (i*n+j-n) + i%2))
       ∨ (j < n - 1 ∧ w = (i*n+j, i*n+j+1))
       ∨ (i + 1 < m ∧ (j < n - 1 ∨ i % 2 = 0) ∧ w = (i*n+j, i*n+j+n+i%2))) := by
  unfold wallsAt
  simp only [List.mem_append, mem_ite_singleton]
  tauto

/-- Membership in the full wall list. -/
theorem mem_init_walls {m n : Nat} {w : Wall} :
    w ∈ init_walls m n ↔ ∃ i j, i < m ∧ j < n ∧
      ((0 < i ∧ (j < n - 1 ∨ i % 2 = 0) ∧ w = (i*n+j, (i*n+j-n) + i%2))
       ∨ (j < n - 1 ∧ w = (i*n+j, i*n+j+1))
       ∨ (i + 1 < m ∧ (j < n - 1 ∨ i % 2 = 0) ∧ w = (i*n+j, i*n+j+n+i%2))) := by
  simp [init_walls, List.mem_flatMap, List.mem_range, mem_wallsAt]

/-- Decompose a flat cell index: the `(column, row)` pair is unique. -/
theorem flat_inj {n i j i' j' : Nat} (hj : j < n) (hj' : j' < n)
    (h : i * n + j = i' * n + j') : i = i' ∧ j = j' := by
  have hn : 0 < n := by omega
  constructor
  · have e1 : (i * n + j) / n = i := by
      rw [Nat.add_comm, Nat.add_mul_div_right j i hn, Nat.div_eq_of_lt hj]; omega
    have e2 : (i' * n + j') / n = i' := by
      rw [Nat.add_comm, Nat.add_mul_div_right j' i' hn, Nat.div_eq_of_lt hj']; omega
    rw [← e1, ← e2, h]
  · have e1 : (i * n + j) % n = j := by
      rw [Nat.add_comm, Nat.add_mul_mod_self_right, Nat.mod_eq_of_lt hj]
    have e2 : (i' * n + j') % n = j' := by
      rw [Nat.add_comm, Nat.add_mul_mod_self_right, Nat.mod_eq_of_lt hj']
    rw [← e1, ← e2, h]

/-- The hexagonal-grid adjacency relation of the source's cell model
(comment above `init_walls`): cell `(k,l)` is adjacent to `(k,l±1)`,
to `(k±1,l)`, and to `(k±1,l-1)` if `k` is even / `(k±1,l+1)` if `k` is odd,
whenever those cells exist.  `a` is the flat index `i*n+j`. -/
def nbr (m n a b : Nat) : Prop :=
  ∃ i j, i < m ∧ j < n ∧ a = i * n + j ∧
    (  (j + 1 < n ∧ b = a + 1)
     ∨ (0 < j ∧ b + 1 = a)
     ∨ (i + 1 < m ∧ b = a + n)
     ∨ (0 < i ∧ b + n = a)
     ∨ (i % 2 = 0 ∧ i + 1 < m ∧ 0 < j ∧ b + 1 = a + n)
     ∨ (i % 2 = 0 ∧ 0 < i ∧ 0 < j ∧ b + n + 1 = a)
     ∨ (i % 2 = 1 ∧ i + 1 < m ∧ j + 1 < n ∧ b = a + n + 1)
     ∨ (i % 2 = 1 ∧ 0 < i ∧ j + 1 < n ∧ b + n = a + 1))

/-- Subtraction-free membership characterization (for `2 ≤ n`): the NW wall's
second field satisfies `w.2 + n = i*n + j + i%2`. -/
theorem mem_init_walls_norm {m n : Nat} (hn : 2 ≤ n) {w : Wall} :
    w ∈ init_walls m n ↔ ∃ i j, i < m ∧ j < n ∧ w.1 = i * n + j ∧
      ((0 < i ∧ (j < n - 1 ∨ i % 2 = 0) ∧ w.2 + n = i * n + j + i % 2)
       ∨ (j + 1 < n ∧ w.2 = i * n + j + 1)
       ∨ (i + 1 < m ∧ (j < n - 1 ∨ i % 2 = 0) ∧ w.2 = i * n + j + n + i % 2)) := by
  rw [mem_init_walls]
  constructor
  · rintro ⟨i, j, hi, hj, hcase⟩
    refine ⟨i, j, hi, hj, ?_⟩
    rcases hcase with ⟨hpos, hcond, rfl⟩ | ⟨hcond, rfl⟩ | ⟨hlt, hcond, rfl⟩
    · have hit : n ≤ i * n := by
        calc n = 1 * n := (one_mul n).symm
        _ ≤ i * n := Nat.mul_le_mul_right n hpos
      refine ⟨rfl, Or.inl ⟨hpos, hcond, ?_⟩⟩
      simp only
      generalize i * n = t at *
      omega
    · exact ⟨rfl, Or.inr (Or.inl ⟨by omega, rfl⟩)⟩
    · exact ⟨rfl, Or.inr (Or.inr ⟨hlt, hcond, rfl⟩)⟩
  · rintro ⟨i, j, hi, hj, h1, hcase⟩
    refine ⟨i, j, hi, hj, ?_⟩
    rcases hcase with ⟨hpos, hcond, h2⟩ | ⟨hcond, h2⟩ | ⟨hlt, hcond, h2⟩
    · refine Or.inl ⟨hpos, hcond, ?_⟩
      have hit : n ≤ i * n := by
        calc n = 1 * n := (one_mul n).symm
        _ ≤ i * n := Nat.mul_le_mul_right n hpos
      have : w = (w.1, w.2) := rfl
      rw [this, h1]
      generalize i * n = t at *
      have : w.2 = t + j - n + i % 2 := by omega
      rw [this]
    · refine Or.inr (Or.inl ⟨by omega, ?_⟩)
      have : w = (w.1, w.2) := rfl
      rw [this, h1, h2]
    · refine Or.inr (Or.inr ⟨hlt, hcond, ?_⟩)
      have : w = (w.1, w.2) := rfl
      rw [this, h1, h2]

/-- Every wall `init_walls` emits joins two adjacent cells of the hex grid. -/
theorem init_walls_sound {m n : Nat} (hn : 2 ≤ n) {w : Wall}
    (hw : w ∈ init_walls m n) : nbr m n w.1 w.2 := by
  rw [mem_init_walls_norm hn] at hw
  obtain ⟨i, j, hi, hj, h1, hcase⟩ := hw
  rcases hcase with ⟨hpos, hcond, h2⟩ | ⟨hcond, h2⟩ | ⟨hlt, hcond, h2⟩
  · -- NW wall
    rcases eq_or_ne (i % 2) 0 with hp | hp
    · -- even column: left-eq neighbour, disjunct (0 < i ∧ w.2 + n = w.1)
      exact ⟨i, j, hi, hj, h1, Or.inr (Or.inr (Or.inr (Or.inl ⟨hpos, by omega⟩)))⟩
    · -- odd column: left-up neighbour, disjunct (i%2=1 ∧ 0<i ∧ j+1<n ∧ w.2+n = w.1+1)
      have hp1 : i % 2 = 1 := by omega
      refine ⟨i, j, hi, hj, h1, Or.inr (Or.inr (Or.inr (Or.inr (Or.inr (Or.inr (Or.inr
        ⟨hp1, hpos, by omega, by omega⟩))))))⟩
  · -- N wall: up neighbour
    exact ⟨i, j, hi, hj, h1, Or.inl ⟨hcond, by omega⟩⟩
  · -- NE wall
    rcases eq_or_ne (i % 2) 0 with hp | hp
    · exact ⟨i, j, hi, hj, h1, Or.inr (Or.inr (Or.inl ⟨hlt, by omega⟩))⟩
    · have hp1 : i % 2 = 1 := by omega
      refine ⟨i, j, hi, hj, h1, Or.inr (Or.inr (Or.inr (Or.inr (Or.inr (Or.inr (Or.inl
        ⟨hp1, hlt, by omega, by omega⟩))))))⟩

/-- Every adjacent pair of the hex grid is emitted by `init_walls`
(as one of the two orientations). -/
theorem init_walls_complete {m n : Nat} (hn : 2 ≤ n) {a b : Nat}
    (hab : nbr m n a b) :
    ∃ w ∈ init_walls m n, (w.1 = a ∧ w.2 = b) ∨ (w.1 = b ∧ w.2 = a) := by
  obtain ⟨i, j, hi, hj, ha, hcase⟩ := hab
  rcases hcase with ⟨h1, h2⟩ | ⟨h1, h2⟩ | ⟨h1, h2⟩ | ⟨h1, h2⟩
    | ⟨hp, h1, h2, h3⟩ | ⟨hp, h1, h2, h3⟩ | ⟨hp, h1, h2, h3⟩ | ⟨hp, h1, h2, h3⟩
  · -- up: N wall at (i, j)
    refine ⟨(a, b), ?_, Or.inl ⟨rfl, rfl⟩⟩
    rw [mem_init_walls_norm hn]
    exact ⟨i, j, hi, hj, ha, Or.inr (Or.inl ⟨h1, by omega⟩)⟩
  · -- down: N wall at (i, j-1)
    refine ⟨(b, a), ?_, Or.inr ⟨rfl, rfl⟩⟩
    rw [mem_init_walls_norm hn]
    refine ⟨i, j - 1, hi, by omega, ?_, Or.inr (Or.inl ⟨by omega, ?_⟩)⟩ <;>
      · generalize i * n = t at *
        omega
  · -- right-eq
    rcases eq_or_ne (i % 2) 0 with hp | hp
    · -- even column: NE wall at (i, j)
      refine ⟨(a, b), ?_, Or.inl ⟨rfl, rfl⟩⟩
      rw [mem_init_walls_norm hn]
      exact ⟨i, j, hi, hj, ha, Or.inr (Or.inr ⟨h1, Or.inr hp, by omega⟩)⟩
    · -- odd column: NW wall at (i+1, j)
      refine ⟨(b, a), ?_, Or.inr ⟨rfl, rfl⟩⟩
      rw [mem_init_walls_norm hn]
      refine ⟨i + 1, j, h1, hj, ?_, Or.inl ⟨by omega, Or.inr (by omega), ?_⟩⟩ <;>
        · have hsm : (i + 1) * n = i * n + n := Nat.succ_mul i n
          rw [hsm]
          generalize i * n = t at *
          omega
  · -- left-eq
    rcases eq_or_ne (i % 2) 0 with hp | hp
    · -- even column: NW wall at (i, j)
      refine ⟨(a, b), ?_, Or.inl ⟨rfl, rfl⟩⟩
      rw [mem_init_walls_norm hn]
      exact ⟨i, j, hi, hj, ha, Or.inl ⟨h1, Or.inr hp, by omega⟩⟩
    · -- odd column: NE wall at (i-1, j)
      obtain ⟨i2, rfl⟩ : ∃ i2, i = i2 + 1 := ⟨i - 1, by omega⟩
      refine ⟨(b, a), ?_, Or.inr ⟨rfl, rfl⟩⟩
      rw [mem_init_walls_norm hn]
      have hsm : (i2 + 1) * n = i2 * n + n := Nat.succ_mul i2 n
      refine ⟨i2, j, by omega, hj, ?_, Or.inr (Or.inr ⟨hi, Or.inr (by omega), ?_⟩)⟩ <;>
        · rw [hsm] at ha
          generalize i2 * n = t at *
          omega
  · -- even right-down: NW wall at (i+1, j-1)
    refine ⟨(b, a), ?_, Or.inr ⟨rfl, rfl⟩⟩
    rw [mem_init_walls_norm hn]
    have hsm : (i + 1) * n = i * n + n := Nat.succ_mul i n
    refine ⟨i + 1, j - 1, h1, by omega, ?_, Or.inl ⟨by omega, Or.inl (by omega), ?_⟩⟩ <;>
      · rw [hsm]
        generalize i * n = t at *
        omega
  · -- even left-down: NE wall at (i-1, j-1)
    obtain ⟨i2, rfl⟩ : ∃ i2, i = i2 + 1 := ⟨i - 1, by omega⟩
    refine ⟨(b, a), ?_, Or.inr ⟨rfl, rfl⟩⟩
    rw [mem_init_walls_norm hn]
    have hsm : (i2 + 1) * n = i2 * n + n := Nat.succ_mul i2 n
    refine ⟨i2, j - 1, by omega, by omega, ?_, Or.inr (Or.inr ⟨hi, Or.inl (by omega), ?_⟩)⟩ <;>
      · rw [hsm] at ha
        generalize i2 * n = t at *
        omega
  · -- odd right-up: NE wall at (i, j)
    refine ⟨(a, b), ?_, Or.inl ⟨rfl, rfl⟩⟩
    rw [mem_init_walls_norm hn]
    exact ⟨i, j, hi, hj, ha, Or.inr (Or.inr ⟨h1, Or.inl (by omega), by omega⟩)⟩
  · -- odd left-up: NW wall at (i, j)
    refine ⟨(a, b), ?_, Or.inl ⟨rfl, rfl⟩⟩
    rw [mem_init_walls_norm hn]
    exact ⟨i, j, hi, hj, ha, Or.inl ⟨h1, Or.inl (by omega), by omega⟩⟩

/-- Two emitted walls joining the same unordered cell pair are the same wall:
each adjacency is enumerated at most once. -/
theorem init_walls_pair_unique {m n : Nat} (hn : 2 ≤ n) {w w' : Wall}
    (h : w ∈ init_walls m n) (h' : w' ∈ init_walls m n)
    (hp : (w.1 = w'.1 ∧ w.2 = w'.2) ∨ (w.1 = w'.2 ∧ w.2 = w'.1)) : w = w' := by
  rcases hp with ⟨e1, e2⟩ | ⟨e1, e2⟩
  · exact Prod.ext e1 e2
  · -- swapped orientation: impossible for distinct emitted walls
    exfalso
    rw [mem_init_walls_norm hn] at h h'
    obtain ⟨i, j, hi, hj, h1, hc⟩ := h
    obtain ⟨i', j', hi', hj', h1', hc'⟩ := h'
    rcases hc with ⟨q1, q2, q3⟩ | ⟨q1, q2⟩ | ⟨q1, q2, q3⟩ <;>
      rcases hc' with ⟨r1, r2, r3⟩ | ⟨r1, r2⟩ | ⟨r1, r2, r3⟩
    · -- NW / NW
      omega
    · -- NW / N
      rcases q2 with hq2 | hq2
      · -- j < n-1, so only n = 2 with odd i could clash; parity kills it
        have hn2 : n = 2 ∧ i % 2 = 1 := by omega
        obtain ⟨hn2, hodd⟩ := hn2
        subst hn2
        omega
      · omega
    · -- NW / NE
      have hpar : i % 2 = 0 ∧ i' % 2 = 0 := by omega
      have hE : i * n + j = (i' + 1) * n + j' := by
        rw [Nat.succ_mul]
        omega
      obtain ⟨hii, hjj⟩ := flat_inj hj hj' hE
      omega
    · -- N / NW
      rcases r2 with hr2 | hr2
      · have hn2 : n = 2 ∧ i' % 2 = 1 := by omega
        obtain ⟨hn2, hodd⟩ := hn2
        subst hn2
        omega
      · omega
    · -- N / N
      omega
    · -- N / NE
      omega
    · -- NE / NW
      have hpar : i % 2 = 0 ∧ i' % 2 = 0 := by omega
      have hE : i' * n + j' = (i + 1) * n + j := by
        rw [Nat.succ_mul]
        omega
      obtain ⟨hii, hjj⟩ := flat_inj hj' hj hE
      omega
    · -- NE / N
      omega
    · -- NE / NE
      omega

/-- The first component of every wall emitted at cell `(i,j)` is `i*n+j`. -/
theorem wallsAt_fst {m n i j : Nat} {w : Wall} (hw : w ∈ wallsAt m n i j) :
    w.1 = i * n + j := by
  rw [mem_wallsAt] at hw
  rcases hw with ⟨_, _, rfl⟩ | ⟨_, rfl⟩ | ⟨_, _, rfl⟩ <;> rfl

/-- The three walls emitted at one cell are pairwise distinct records. -/
theorem wallsAt_nodup {m n i j : Nat} (hn : 2 ≤ n) : (wallsAt m n i j).Nodup := by
  have hin : n ≤ i * n ∨ i = 0 := by
    rcases Nat.eq_zero_or_pos i with hi | hi
    · exact Or.inr hi
    · refine Or.inl ?_
      calc n = 1 * n := (one_mul n).symm
      _ ≤ i * n := Nat.mul_le_mul_right n hi
  unfold wallsAt
  split_ifs <;> simp_all [Prod.ext_iff] <;> omega

/-- `init_walls` emits a duplicate-free list of wall records. -/
theorem init_walls_nodup {m n : Nat} (hn : 2 ≤ n) : (init_walls m n).Nodup := by
  unfold init_walls
  rw [List.nodup_flatMap]
  constructor
  · intro i _
    rw [List.nodup_flatMap]
    refine ⟨fun j _ => wallsAt_nodup hn, ?_⟩
    refine (List.pairwise_lt_range n).imp ?_
    intro j j' hjj w hw hw'
    have e1 := wallsAt_fst hw
    have e2 := wallsAt_fst hw'
    omega
  · refine (List.pairwise_lt_range m).imp ?_
    intro i i' hii w hw hw'
    simp only [List.mem_flatMap, List.mem_range] at hw hw'
    obtain ⟨j, hj, hwj⟩ := hw
    obtain ⟨j', hj', hwj'⟩ := hw'
    have e1 := wallsAt_fst hwj
    have e2 := wallsAt_fst hwj'
    have := flat_inj hj hj' (e1 ▸ e2 ▸ rfl : i * n + j = i' * n + j')
    omega

/-- A duplicate-free list whose matches for `p` are all one element `w₀`,
which is present and matches, has exactly one match. -/
theorem countP_eq_one_of_unique {α : Type} {l : List α} {p : α → Bool} {w₀ : α}
    (hnd : l.Nodup) (hmem : w₀ ∈ l) (hp : p w₀ = true)
    (huniq : ∀ w ∈ l, p w = true → w = w₀) : l.countP p = 1 := by
  rw [List.countP_eq_length_filter]
  have hmemf : w₀ ∈ l.filter p := List.mem_filter.mpr ⟨hmem, hp⟩
  have hall : ∀ x ∈ l.filter p, x = w₀ := by
    intro x hx
    obtain ⟨hxl, hxp⟩ := List.mem_filter.mp hx
    exact huniq x hxl hxp
  have hndf : (l.filter p).Nodup := hnd.filter p
  match hfe : l.filter p with
  | [] => rw [hfe] at hmemf; cases hmemf
  | [x] => rfl
  | x :: y :: t =>
    rw [hfe] at hall hndf
    have hx : x = w₀ := hall x (List.mem_cons_self x _)
    have hy : y = w₀ := hall y (List.mem_cons_of_mem x (List.mem_cons_self y t))
    rw [List.nodup_cons] at hndf
    exact absurd (by rw [hx, hy]; exact List.mem_cons_self w₀ t) hndf.1

/-- Boolean test: wall `w` joins the unordered cell pair `{a, b}`. -/
def sameWall (a b : Nat) (w : Wall) : Bool :=
  (w.1 == a && w.2 == b) || (w.1 == b && w.2 == a)

theorem sameWall_iff {a b : Nat} {w : Wall} :
    sameWall a b w = true ↔ (w.1 = a ∧ w.2 = b) ∨ (w.1 = b ∧ w.2 = a) := by
  simp [sameWall]

/-- C6: for valid dimensions, `init_walls` enumerates each adjacent cell pair
of the hexagonal grid exactly once, and the number of enumerated walls equals
the closed-form count `(m-1)*(2n-1) + m*(n-1) = 3mn-2m-2n+1`; in particular
the count the C code compares against `3*m*n-m-m-n-n+1` in its fatal
assertion agrees, so the assertion branch is unreachable. -/
theorem init_walls_enumeration (m n : Nat)
    (hm1 : 2 ≤ m) (hm2 : m ≤ 1000) (hn1 : 2 ≤ n) (hn2 : n ≤ 1000) :
    (init_walls m n).length = (m - 1) * (2 * n - 1) + m * (n - 1)
    ∧ (init_walls m n).length = 3 * m * n - 2 * m - 2 * n + 1
    ∧ (∀ w ∈ init_walls m n, nbr m n w.1 w.2)
    ∧ (∀ a b, nbr m n a b → (init_walls m n).countP (sameWall a b) = 1)
    ∧ (init_walls m n).length = 3 * m * n - m - m - n - n + 1 := by
  have hlen := init_walls_length m n hm1 hn1
  have hadd := init_walls_length_add m n hm1 hn1
  refine ⟨?_, hlen, fun w hw => init_walls_sound hn1 hw, ?_, ?_⟩
  · -- closed form
    have hcf : (m - 1) * (2 * n - 1) + m * (n - 1) + 2 * m + 2 * n = 3 * m * n + 1 := by
      obtain ⟨a, rfl⟩ : ∃ a, m = a + 2 := ⟨m - 2, by omega⟩
      obtain ⟨b, rfl⟩ : ∃ b, n = b + 2 := ⟨n - 2, by omega⟩
      have e1 : a + 2 - 1 = a + 1 := by omega
      have e2 : 2 * (b + 2) - 1 = 2 * b + 3 := by omega
      have e3 : b + 2 - 1 = b + 1 := by omega
      rw [e1, e2, e3]
      ring
    generalize (init_walls m n).length = L at hadd hlen ⊢
    generalize (m - 1) * (2 * n - 1) + m * (n - 1) = F at hcf ⊢
    have h3 : 3 * m * n = m * n + m * n + m * n := by ring
    rw [h3] at hadd hcf
    generalize m * n = k at hadd hcf
    omega
  · -- each adjacent pair appears exactly once
    intro a b hab
    obtain ⟨w₀, hw₀, hor⟩ := init_walls_complete hn1 hab
    refine countP_eq_one_of_unique (init_walls_nodup hn1) hw₀ (sameWall_iff.mpr hor) ?_
    intro w hw hsw
    have hor' := sameWall_iff.mp hsw
    refine init_walls_pair_unique hn1 hw hw₀ ?_
    rcases hor with ⟨e1, e2⟩ | ⟨e1, e2⟩ <;> rcases hor' with ⟨f1, f2⟩ | ⟨f1, f2⟩
    · exact Or.inl ⟨by omega, by omega⟩
    · exact Or.inr ⟨by omega, by omega⟩
    · exact Or.inr ⟨by omega, by omega⟩
    · exact Or.inl ⟨by omega, by omega⟩
  · -- the exact expression of the C assertion
    rw [hlen]
    have h3 : 3 * m * n = m * n + m * n + m * n := by ring
    rw [h3]
    generalize m * n = k
    omega

/-! ## The disjoint-set forest (`cells`, `base`, `unify`) -/

/-- The C `cells` array: entry `< 0` marks a root holding minus the component
size; entry `≥ 0` links toward another cell of the same component. -/
abbrev Cells := List Int

/-- Read `cells[x]` (every access the program performs is in bounds). -/
def cellAt (c : Cells) (x : Nat) : Int := c.getD x (-1)

/-- The link followed from a non-root cell. -/
def nextCell (c : Cells) (x : Nat) : Nat := (cellAt c x).toNat

theorem cellAt_set_ne {c : Cells} {i j : Nat} {v : Int} (h : i ≠ j) :
    cellAt (c.set i v) j = cellAt c j := by
  simp [cellAt, List.getD, List.getElem?_set_ne h]

theorem cellAt_set_self {c : Cells} {i : Nat} {v : Int} (h : i < c.length) :
    cellAt (c.set i v) i = v := by
  simp [cellAt, List.getD, List.getElem?_set_self, h]

theorem cellAt_default {c : Cells} {i : Nat} (h : c.length ≤ i) :
    cellAt c i = -1 := by
  unfold cellAt
  rw [List.getD_eq_default _ _ h]

/-- First loop of the C `base`: chase links from `x` until a root is reached.
The C loop has no fuel; callers pass fuel `c.length + 1`, which the
termination invariant proves sufficient. -/
def chase (c : Cells) : Nat → Nat → Nat
  | 0, x => x
  | fuel + 1, x => if cellAt c x < 0 then x else chase c fuel (nextCell c x)

/-- Second loop of the C `base`: rewrite every non-root cell on the chain from
`x` to point directly at `z` (path compression).  The next cell is read before
the entry is overwritten, exactly as in `x=cells[y]; cells[y]=z; y=x;`. -/
def snap (c : Cells) : Nat → Nat → Nat → Cells
  | _, 0, _ => c
  | x, fuel + 1, z =>
    if cellAt c x < 0 then c else snap (c.set x (z : Int)) (nextCell c x) fuel z

/-- The C `base`: returns the root of `x`'s component and the path-compressed
array. -/
def base (c : Cells) (x : Nat) : Nat × Cells :=
  (chase c (c.length + 1) x, snap c x (c.length + 1) (chase c (c.length + 1) x))

/-- The C `unify`: link two roots, smaller component under larger, and store
the merged (negative) size in the surviving root (`sx`,`sy` inlined). -/
def unify (c : Cells) (x y : Nat) : Cells :=
  if cellAt c x < cellAt c y then (c.set y (x : Int)).set x (cellAt c x + cellAt c y)
  else (c.set x (y : Int)).set y (cellAt c x + cellAt c y)

/-- Link-chasing from `x` terminates at the root `r` (specification-level
description of repeated link-following). -/
inductive Reaches (c : Cells) : Nat → Nat → Prop where
  | root {x} : cellAt c x < 0 → Reaches c x x
  | step {x r} : 0 ≤ cellAt c x → Reaches c (nextCell c x) r → Reaches c x r

/-- Link-chasing from `x` reaches root `r` in exactly `k` steps. -/
inductive ReachesIn (c : Cells) : Nat → Nat → Nat → Prop where
  | root {x} : cellAt c x < 0 → ReachesIn c 0 x x
  | step {k x r} : 0 ≤ cellAt c x → ReachesIn c k (nextCell c x) r → ReachesIn c (k + 1) x r

theorem Reaches.toIn {c : Cells} {x r : Nat} (h : Reaches c x r) :
    ∃ k, ReachesIn c k x r := by
  induction h with
  | root h => exact ⟨0, .root h⟩
  | step h _ ih => obtain ⟨k, hk⟩ := ih; exact ⟨k + 1, .step h hk⟩

theorem ReachesIn.toReaches {c : Cells} {k x r : Nat} (h : ReachesIn c k x r) :
    Reaches c x r := by
  induction h with
  | root h => exact .root h
  | step h _ ih => exact .step h ih

theorem ReachesIn.detK {c : Cells} {k k' x r r' : Nat}
    (h : ReachesIn c k x r) (h' : ReachesIn c k' x r') : k = k' ∧ r = r' := by
  induction h generalizing k' with
  | root hr =>
    cases h' with
    | root _ => exact ⟨rfl, rfl⟩
    | step hs _ => omega
  | step hs _ ih =>
    cases h' with
    | root hr => omega
    | step hs2 htail =>
      obtain ⟨h1, h2⟩ := ih htail
      exact ⟨by omega, h2⟩

theorem Reaches.det {c : Cells} {x r r' : Nat}
    (h : Reaches c x r) (h' : Reaches c x r') : r = r' := by
  obtain ⟨k, hk⟩ := h.toIn
  obtain ⟨k', hk'⟩ := h'.toIn
  exact (hk.detK hk').2

theorem Reaches.root_lt {c : Cells} {x r : Nat} (h : Reaches c x r) :
    cellAt c r < 0 := by
  induction h with
  | root h => exact h
  | step _ _ ih => exact ih

theorem Reaches.of_root {c : Cells} {r z : Nat} (hr : cellAt c r < 0)
    (h : Reaches c r z) : z = r := (h.det (.root hr)).symm ▸ rfl

/-- The cell reached from `x` after following `i` links. -/
def iterChain (c : Cells) (x i : Nat) : Nat := (nextCell c)^[i] x

theorem iterChain_zero (c : Cells) (x : Nat) : iterChain c x 0 = x := rfl

theorem iterChain_succ (c : Cells) (x i : Nat) :
    iterChain c x (i + 1) = iterChain c (nextCell c x) i := by
  unfold iterChain
  exact Function.iterate_succ_apply (nextCell c) i x

theorem iterChain_succ_right (c : Cells) (x i : Nat) :
    iterChain c x (i + 1) = nextCell c (iterChain c x i) := by
  unfold iterChain
  exact Function.iterate_succ_apply' (nextCell c) i x

theorem reachesIn_iterate {c : Cells} {k x r : Nat} (h : ReachesIn c k x r) :
    ∀ i, i ≤ k → ReachesIn c (k - i) (iterChain c x i) r := by
  intro i
  induction i with
  | zero => intro _; simpa using h
  | succ i ih =>
    intro hik
    have hprev := ih (by omega)
    obtain ⟨k2, hk2⟩ : ∃ k2, k - i = k2 + 1 := ⟨k - i - 1, by omega⟩
    rw [hk2] at hprev
    cases hprev with
    | step hge htail =>
      have : k - (i + 1) = k2 := by omega
      rw [this, iterChain_succ_right]
      exact htail

theorem iterChain_last {c : Cells} {k x r : Nat} (h : ReachesIn c k x r) :
    iterChain c x k = r := by
  have := reachesIn_iterate h k (le_refl k)
  rw [Nat.sub_self] at this
  cases this with
  | root _ => rfl

theorem iterChain_inj {c : Cells} {k x r : Nat} (h : ReachesIn c k x r)
    {i j : Nat} (hi : i ≤ k) (hj : j ≤ k)
    (he : iterChain c x i = iterChain c x j) : i = j := by
  have h1 := reachesIn_iterate h i hi
  have h2 := reachesIn_iterate h j hj
  rw [he] at h1
  have := h1.detK h2
  omega

/-- All cells touched by a terminating chain stay inside the array when all
links do. -/
theorem chain_cells_lt {c : Cells} {k x r : Nat} (h : ReachesIn c k x r)
    (hx : x < c.length)
    (hv : ∀ w, w < c.length → 0 ≤ cellAt c w → nextCell c w < c.length) :
    ∀ i, i ≤ k → iterChain c x i < c.length := by
  intro i
  induction i with
  | zero => intro _; simpa using hx
  | succ i ih =>
    intro hik
    have hlt := ih (by omega)
    have hstep := reachesIn_iterate h i (by omega)
    obtain ⟨k2, hk2⟩ : ∃ k2, k - i = k2 + 1 := ⟨k - i - 1, by omega⟩
    rw [hk2] at hstep
    cases hstep with
    | step hge _ =>
      rw [iterChain_succ_right]
      exact hv _ hlt hge

/-- Pigeonhole: a terminating chain makes at most `c.length` steps. -/
theorem reachesIn_le_length {c : Cells} {k x r : Nat} (h : ReachesIn c k x r)
    (hx : x < c.length)
    (hv : ∀ w, w < c.length → 0 ≤ cellAt c w → nextCell c w < c.length) :
    k ≤ c.length := by
  have hinj : Set.InjOn (iterChain c x) ↑(Finset.range k) := by
    intro i hi j hj he
    simp only [Finset.coe_range, Set.mem_Iio] at hi hj
    exact iterChain_inj h (by omega) (by omega) he
  have hcard : ((Finset.range k).image (iterChain c x)).card = k := by
    rw [Finset.card_image_of_injOn hinj, Finset.card_range]
  have hsub : (Finset.range k).image (iterChain c x) ⊆ Finset.range c.length := by
    intro y hy
    obtain ⟨i, hi, rfl⟩ := Finset.mem_image.mp hy
    simp only [Finset.mem_range] at hi ⊢
    exact chain_cells_lt h hx hv i (by omega)
  have := Finset.card_le_card hsub
  rw [hcard, Finset.card_range] at this
  exact this

/-- The first loop of `base` returns the chain's root whenever its fuel
exceeds the chain length. -/
theorem chase_eq {c : Cells} {k x r : Nat} (h : ReachesIn c k x r) :
    ∀ fuel, k < fuel → chase c fuel x = r := by
  induction h with
  | root hr =>
    intro fuel hf
    obtain ⟨f, rfl⟩ : ∃ f, fuel = f + 1 := ⟨fuel - 1, by omega⟩
    simp [chase, hr]
  | step hge _ ih =>
    intro fuel hf
    obtain ⟨f, rfl⟩ : ∃ f, fuel = f + 1 := ⟨fuel - 1, by omega⟩
    simp only [chase, not_lt.mpr hge, if_neg (not_lt.mpr hge)]
    exact ih f (by omega)

/-- Chains only read the entries of the cells they visit. -/
theorem iterChain_congr {c c2 : Cells} {v : Nat} :
    ∀ i, (∀ j, j < i → cellAt c2 (iterChain c v j) = cellAt c (iterChain c v j)) →
    iterChain c2 v i = iterChain c v i := by
  intro i
  induction i with
  | zero => intro _; rfl
  | succ i ih =>
    intro hag
    have he : iterChain c2 v i = iterChain c v i := ih fun j hj => hag j (by omega)
    rw [iterChain_succ_right, iterChain_succ_right, he]
    unfold nextCell
    rw [hag i (by omega)]

/-- `ReachesIn` transfers to an array that agrees on every visited cell. -/
theorem ReachesIn.congr {c c2 : Cells} {k v r : Nat} (h : ReachesIn c k v r)
    (hag : ∀ i, i ≤ k → cellAt c2 (iterChain c v i) = cellAt c (iterChain c v i)) :
    ReachesIn c2 k v r := by
  induction h with
  | root hr =>
    refine ReachesIn.root ?_
    have := hag 0 (by omega)
    rw [iterChain_zero] at this
    omega
  | step hge htail ih =>
    rename_i k2 x2 r2
    have h0 := hag 0 (by omega)
    rw [iterChain_zero] at h0
    have hnext : nextCell c2 x2 = nextCell c x2 := by
      unfold nextCell
      rw [h0]
    refine ReachesIn.step (by omega) ?_
    rw [hnext]
    refine ih ?_
    intro i hi
    have := hag (i + 1) (by omega)
    rwa [iterChain_succ] at this

/-- Full specification of the compression loop: with enough fuel it sets every
non-root cell visited on the chain to point at `r` and leaves everything else
untouched. -/
theorem snap_spec {r : Nat} :
    ∀ k c x, ReachesIn c k x r → ∀ fuel, k ≤ fuel →
    (snap c x fuel r).length = c.length
    ∧ (∀ i, i < k → cellAt (snap c x fuel r) (iterChain c x i) = (r : Int))
    ∧ (∀ y, (∀ i, i < k → iterChain c x i ≠ y) →
        cellAt (snap c x fuel r) y = cellAt c y) := by
  intro k
  induction k with
  | zero =>
    intro c x h fuel _
    have hroot : cellAt c x < 0 := by cases h with | root hr => exact hr
    rcases fuel with _ | f
    · exact ⟨rfl, fun i hi => by omega, fun y _ => rfl⟩
    · refine ⟨?_, fun i hi => by omega, fun y _ => ?_⟩ <;> simp [snap, hroot]
  | succ k ih =>
    intro c x h fuel hfuel
    obtain ⟨f, rfl⟩ : ∃ f, fuel = f + 1 := ⟨fuel - 1, by omega⟩
    rcases h with _ | ⟨hge, htail⟩
    have hfull : ReachesIn c (k + 1) x r := .step hge htail
    -- the chain from `nextCell c x` never revisits `x`
    have hx_not : ∀ i, i ≤ k → iterChain c x (i + 1) ≠ x := by
      intro i hik he
      have : i + 1 = 0 := iterChain_inj hfull (by omega) (by omega) (by rw [he]; rfl)
      omega
    set c2 := c.set x (r : Int) with hc2
    have hagree : ∀ i, i ≤ k →
        cellAt c2 (iterChain c (nextCell c x) i) = cellAt c (iterChain c (nextCell c x) i) := by
      intro i hik
      have hne : iterChain c (nextCell c x) i ≠ x := by
        rw [← iterChain_succ]
        exact hx_not i hik
      rw [hc2]
      exact cellAt_set_ne (fun he => hne he.symm)
    have htail2 : ReachesIn c2 k (nextCell c x) r := htail.congr hagree
    have hiter2 : ∀ i, i ≤ k → iterChain c2 (nextCell c x) i = iterChain c (nextCell c x) i :=
      fun i hik => iterChain_congr i (fun j hj => hagree j (by omega))
    have hrec := ih c2 (nextCell c x) htail2 f (by omega)
    have hsnap : snap c x (f + 1) r = snap c2 (nextCell c x) f r := by
      rw [snap]
      rw [if_neg (not_lt.mpr hge)]
    obtain ⟨hlen, hon, hoff⟩ := hrec
    refine ⟨?_, ?_, ?_⟩
    · rw [hsnap, hlen, hc2, List.length_set]
    · intro i hik
      rcases i with _ | i2
      · -- the cell x itself: off the new chain, set to r in c2
        rw [hsnap, iterChain_zero]
        have hxoff : ∀ i, i < k → iterChain c2 (nextCell c x) i ≠ x := by
          intro i hi
          rw [hiter2 i (by omega), ← iterChain_succ]
          exact hx_not i (by omega)
        rw [hoff x hxoff]
        have hxlt : x < c.length := by
          by_contra hxge
          have : cellAt c x = -1 := cellAt_default (by omega)
          omega
        rw [hc2]
        exact cellAt_set_self hxlt
      · rw [hsnap, iterChain_succ, ← hiter2 i2 (by omega)]
        exact hon i2 (by omega)
    · intro y hy
      have hyne : y ≠ x := fun he => hy 0 (by omega) (by rw [iterChain_zero, he])
      have hyoff : ∀ i, i < k → iterChain c2 (nextCell c x) i ≠ y := by
        intro i hi
        rw [hiter2 i (by omega), ← iterChain_succ]
        exact hy (i + 1) (by omega)
      rw [hsnap, hoff y hyoff, hc2]
      exact cellAt_set_ne (fun he => hyne he.symm)

/-- Well-formedness of the `cells` array: links stay inside the array and
repeated link-following from any cell terminates at a root. -/
def WF (c : Cells) : Prop :=
  (∀ w, w < c.length → 0 ≤ cellAt c w → nextCell c w < c.length) ∧
  (∀ w, w < c.length → ∃ r, Reaches c w r)

/-- Full behaviour of `base`: it returns the root reached by chaining from
`x`, and the updated array differs only on chain cells, which now point
directly at that root. -/
theorem base_spec {c : Cells} {x : Nat} (hwf : WF c) (hx : x < c.length) :
    Reaches c x (base c x).1
    ∧ cellAt c (base c x).1 < 0
    ∧ (base c x).1 < c.length
    ∧ (base c x).2.length = c.length
    ∧ (∀ y, cellAt (base c x).2 y = cellAt c y
        ∨ (cellAt (base c x).2 y = ((base c x).1 : Int) ∧ 0 ≤ cellAt c y
            ∧ Reaches c y (base c x).1)) := by
  obtain ⟨hv, hterm⟩ := hwf
  obtain ⟨r0, hr0⟩ := hterm x hx
  obtain ⟨k, hk⟩ := hr0.toIn
  have hklen : k ≤ c.length := reachesIn_le_length hk hx hv
  have hchase : chase c (c.length + 1) x = r0 := chase_eq hk _ (by omega)
  have hb1 : (base c x).1 = r0 := by rw [base, hchase]
  have hb2 : (base c x).2 = snap c x (c.length + 1) r0 := by rw [base, hchase]
  obtain ⟨hlen, hon, hoff⟩ := snap_spec k c x hk (c.length + 1) (by omega)
  rw [hb1, hb2]
  refine ⟨hr0, hr0.root_lt, ?_, hlen, ?_⟩
  · have := chain_cells_lt hk hx hv k (le_refl k)
    rwa [iterChain_last hk] at this
  · intro y
    by_cases hy : ∃ i, i < k ∧ iterChain c x i = y
    · obtain ⟨i, hik, hiy⟩ := hy
      refine Or.inr ⟨by rw [← hiy]; exact hon i hik, ?_, ?_⟩
      · have hstep := reachesIn_iterate hk i (by omega)
        obtain ⟨k2, hk2⟩ : ∃ k2, k - i = k2 + 1 := ⟨k - i - 1, by omega⟩
        rw [hk2, hiy] at hstep
        cases hstep with
        | step hge _ => exact hge
      · have hstep := reachesIn_iterate hk i (by omega)
        rw [hiy] at hstep
        exact hstep.toReaches
    · push_neg at hy
      exact Or.inl (hoff y fun i hik => hy i hik)

/-- Pointing some cells of their component straight at their root (path
compression) does not change which root any cell reaches. -/
theorem reaches_repoint {c c2 : Cells} {r : Nat}
    (hr : cellAt c r < 0)
    (hpt : ∀ y, cellAt c2 y = cellAt c y
        ∨ (cellAt c2 y = (r : Int) ∧ 0 ≤ cellAt c y ∧ Reaches c y r)) :
    ∀ w z, Reaches c2 w z ↔ Reaches c w z := by
  intro w z
  constructor
  · intro h
    induction h with
    | root hroot =>
      rename_i v
      rcases hpt v with he | ⟨he, _, _⟩
      · exact .root (by omega)
      · rw [he] at hroot
        omega
    | step hge htail ih =>
      rename_i v r2
      rcases hpt v with he | ⟨he, hge0, hvr⟩
      · refine .step (by omega) ?_
        have : nextCell c v = nextCell c2 v := by
          unfold nextCell
          rw [he]
        rw [this]
        exact ih
      · -- v was repointed at r; the chain in c2 goes v → r, a root
        have hnext : nextCell c2 v = r := by
          unfold nextCell
          rw [he]
          exact Int.toNat_natCast r
        rw [hnext] at ih
        have hz : r2 = r := by
          rcases hpt r with hre | ⟨hre, hge2, _⟩
          · exact Reaches.of_root (by omega) ih
          · omega
        rw [hz]
        exact hvr
  · intro h
    induction h with
    | root hroot =>
      rename_i v
      rcases hpt v with he | ⟨_, hge, _⟩
      · exact .root (by omega)
      · omega
    | step hge htail ih =>
      rename_i v r2
      rcases hpt v with he | ⟨he, hge0, hvr⟩
      · refine .step (by omega) ?_
        have : nextCell c2 v = nextCell c v := by
          unfold nextCell
          rw [he]
        rw [this]
        exact ih
      · -- v now points straight at r, and r2 must equal r
        have hz : r2 = r := (Reaches.step hge htail).det hvr
        have hnext : nextCell c2 v = r := by
          unfold nextCell
          rw [he]
          exact Int.toNat_natCast r
        refine .step (by omega) ?_
        rw [hnext, hz]
        refine .root ?_
        rcases hpt r with hre | ⟨_, hge2, _⟩
        · omega
        · omega

/-- Linking root `o` under root `r` (entry of `o` becomes the link `r`, entry
of `r` becomes `v`, still negative) merges exactly the two components. -/
theorem link_partition {c : Cells} {o r : Nat} {v : Int}
    (ho : cellAt c o < 0) (hr : cellAt c r < 0) (hne : o ≠ r) (hv : v < 0)
    (holt : o < c.length) (hrlt : r < c.length) :
    ∀ w z, Reaches ((c.set o (r : Int)).set r v) w z ↔
      ((Reaches c w z ∧ z ≠ o) ∨ (Reaches c w o ∧ z = r)) := by
  set c2 := (c.set o (r : Int)).set r v with hc2
  have hco : cellAt c2 o = (r : Int) := by
    rw [hc2, cellAt_set_ne (fun he => hne he.symm), cellAt_set_self holt]
  have hcr : cellAt c2 r = v := by
    rw [hc2, cellAt_set_self (by rw [List.length_set]; exact hrlt)]
  have hother : ∀ w, w ≠ o → w ≠ r → cellAt c2 w = cellAt c w := by
    intro w hwo hwr
    rw [hc2, cellAt_set_ne (fun he => hwr he.symm), cellAt_set_ne (fun he => hwo he.symm)]
  intro w z
  constructor
  · intro h
    induction h with
    | root hroot =>
      rename_i u
      by_cases huo : u = o
      · rw [huo, hco] at hroot
        omega
      · by_cases hur : u = r
        · refine Or.inl ⟨.root (by rw [hur]; exact hr), ?_⟩
          rw [hur]
          exact fun he => hne he.symm
        · rw [hother u huo hur] at hroot
          exact Or.inl ⟨.root hroot, huo⟩
    | step hge htail ih =>
      rename_i u r2
      by_cases huo : u = o
      · have hnext : nextCell c2 u = r := by
          unfold nextCell
          rw [huo, hco]
          exact Int.toNat_natCast r
        rw [hnext] at ih
        rcases ih with ⟨hrz, hzo⟩ | ⟨hro, hzr⟩
        · have h2 : r2 = r := Reaches.of_root hr hrz
          refine Or.inr ⟨?_, h2⟩
          rw [huo]
          exact .root ho
        · exact absurd (Reaches.of_root hr hro) hne
      · by_cases hur : u = r
        · rw [hur, hcr] at hge
          omega
        · have hnext : nextCell c2 u = nextCell c u := by
            unfold nextCell
            rw [hother u huo hur]
          rw [hnext] at ih
          have hgec : 0 ≤ cellAt c u := by
            rw [← hother u huo hur]
            exact hge
          rcases ih with ⟨hrz, hzo⟩ | ⟨hro, hzr⟩
          · exact Or.inl ⟨.step hgec hrz, hzo⟩
          · exact Or.inr ⟨.step hgec hro, hzr⟩
  · intro h
    rcases h with ⟨hwz, hzo⟩ | ⟨hwo, hzr⟩
    · induction hwz with
      | root hroot =>
        rename_i u
        by_cases hur : u = r
        · refine .root ?_
          rw [hur, hcr]
          exact hv
        · have huo : u ≠ o := hzo
          rw [← hother u huo hur] at hroot
          exact .root hroot
      | step hge htail ih =>
        rename_i u r2
        have huo : u ≠ o := fun he => by
          rw [he] at hge
          omega
        have hur : u ≠ r := fun he => by
          rw [he] at hge
          omega
        refine .step (by rw [hother u huo hur]; exact hge) ?_
        have hnext : nextCell c2 u = nextCell c u := by
          unfold nextCell
          rw [hother u huo hur]
        rw [hnext]
        exact ih hzo
    · have key : ∀ u b, Reaches c u b → b = o → Reaches c2 u r := by
        intro u b h
        induction h with
        | root hroot =>
          rename_i x
          intro hxo
          refine .step (by rw [hxo, hco]; omega) ?_
          have hnext : nextCell c2 x = r := by
            unfold nextCell
            rw [hxo, hco]
            exact Int.toNat_natCast r
          rw [hnext]
          refine .root ?_
          rw [hcr]
          exact hv
        | step hge htail ih =>
          rename_i x r2
          intro hbo
          have hxo : x ≠ o := fun he => by
            rw [he] at hge
            omega
          have hxr : x ≠ r := fun he => by
            rw [he] at hge
            omega
          refine .step (by rw [hother x hxo hxr]; exact hge) ?_
          have hnext : nextCell c2 x = nextCell c x := by
            unfold nextCell
            rw [hother x hxo hxr]
          rw [hnext]
          exact ih hbo
      rw [hzr]
      exact key w o hwo rfl

/-- Complete description of `unify` on two distinct roots: one of the two
roots survives (`r`), the other (`o`) is linked directly under it, the
surviving root records the summed size, nothing else changes, and the
components merge; the linked root's component is never the strictly
larger one. -/
theorem unify_full {c : Cells} {x y : Nat}
    (hx : cellAt c x < 0) (hy : cellAt c y < 0) (hxy : x ≠ y)
    (hxl : x < c.length) (hyl : y < c.length) :
    ∃ o r, ((o = y ∧ r = x) ∨ (o = x ∧ r = y))
    ∧ (unify c x y).length = c.length
    ∧ (∀ w z, Reaches (unify c x y) w z ↔
        ((Reaches c w z ∧ z ≠ o) ∨ (Reaches c w o ∧ z = r)))
    ∧ cellAt (unify c x y) o = (r : Int)
    ∧ cellAt (unify c x y) r = cellAt c x + cellAt c y
    ∧ (∀ w, w ≠ o → w ≠ r → cellAt (unify c x y) w = cellAt c w)
    ∧ (∀ w, cellAt (unify c x y) w < 0 ↔ (cellAt c w < 0 ∧ w ≠ o))
    ∧ (-(cellAt c o)) ≤ (-(cellAt c r)) := by
  have hsum : cellAt c x + cellAt c y < 0 := by omega
  by_cases hlt : cellAt c x < cellAt c y
  · refine ⟨y, x, Or.inl ⟨rfl, rfl⟩, ?_⟩
    have hu : unify c x y = (c.set y (x : Int)).set x (cellAt c x + cellAt c y) := by
      unfold unify
      rw [if_pos hlt]
    rw [hu]
    have hco : cellAt ((c.set y (x : Int)).set x (cellAt c x + cellAt c y)) y = (x : Int) := by
      rw [cellAt_set_ne hxy, cellAt_set_self hyl]
    have hcr : cellAt ((c.set y (x : Int)).set x (cellAt c x + cellAt c y)) x
        = cellAt c x + cellAt c y := by
      rw [cellAt_set_self (by rw [List.length_set]; exact hxl)]
    have hoth : ∀ w, w ≠ y → w ≠ x →
        cellAt ((c.set y (x : Int)).set x (cellAt c x + cellAt c y)) w = cellAt c w := by
      intro w h1 h2
      rw [cellAt_set_ne (fun he => h2 he.symm), cellAt_set_ne (fun he => h1 he.symm)]
    refine ⟨by simp [List.length_set],
      link_partition hy hx (fun he => hxy he.symm) hsum hyl hxl, hco, hcr, hoth, ?_, by omega⟩
    intro w
    by_cases h1 : w = y
    · rw [h1, hco]
      constructor
      · intro h
        omega
      · rintro ⟨_, h2⟩
        exact absurd rfl h2
    · by_cases h2 : w = x
      · rw [h2, hcr]
        constructor
        · intro _
          exact ⟨hx, fun he => hxy he⟩
        · intro _
          exact hsum
      · rw [hoth w h1 h2]
        exact ⟨fun h => ⟨h, h1⟩, fun h => h.1⟩
  · refine ⟨x, y, Or.inr ⟨rfl, rfl⟩, ?_⟩
    have hu : unify c x y = (c.set x (y : Int)).set y (cellAt c x + cellAt c y) := by
      unfold unify
      rw [if_neg hlt]
    rw [hu]
    have hco : cellAt ((c.set x (y : Int)).set y (cellAt c x + cellAt c y)) x = (y : Int) := by
      rw [cellAt_set_ne (fun he => hxy he.symm), cellAt_set_self hxl]
    have hcr : cellAt ((c.set x (y : Int)).set y (cellAt c x + cellAt c y)) y
        = cellAt c x + cellAt c y := by
      rw [cellAt_set_self (by rw [List.length_set]; exact hyl)]
    have hoth : ∀ w, w ≠ x → w ≠ y →
        cellAt ((c.set x (y : Int)).set y (cellAt c x + cellAt c y)) w = cellAt c w := by
      intro w h1 h2
      rw [cellAt_set_ne (fun he => h2 he.symm), cellAt_set_ne (fun he => h1 he.symm)]
    refine ⟨by simp [List.length_set],
      link_partition hx hy hxy hsum hxl hyl, hco, hcr, hoth, ?_, by omega⟩
    intro w
    by_cases h1 : w = x
    · rw [h1, hco]
      constructor
      · intro h
        omega
      · rintro ⟨_, h2⟩
        exact absurd rfl h2
    · by_cases h2 : w = y
      · rw [h2, hcr]
        constructor
        · intro _
          exact ⟨hy, fun he => hxy he.symm⟩
        · intro _
          exact hsum
      · rw [hoth w h1 h2]
        exact ⟨fun h => ⟨h, h1⟩, fun h => h.1⟩

/-- C7: for distinct roots `x`, `y` (negative entries holding minus their
component sizes), `unify x y` links the root of the smaller component
directly under the root of the larger (on ties, `x` goes under `y`, so the
linked root's component is never strictly larger), stores minus the sum of
the two component sizes in the surviving root, leaves all other entries
unchanged, and afterwards both cells reach the same surviving root. -/
theorem unify_merges_components (c : Cells) (x y : Nat)
    (hx : cellAt c x < 0) (hy : cellAt c y < 0) (hxy : x ≠ y)
    (hxl : x < c.length) (hyl : y < c.length) :
    ∃ o r, ((o = y ∧ r = x) ∨ (o = x ∧ r = y))
      ∧ (-(cellAt c o)) ≤ (-(cellAt c r))
      ∧ cellAt (unify c x y) o = (r : Int)
      ∧ (-(cellAt (unify c x y) r)) = (-(cellAt c x)) + (-(cellAt c y))
      ∧ cellAt (unify c x y) r < 0
      ∧ Reaches (unify c x y) x r ∧ Reaches (unify c x y) y r
      ∧ (∀ w, w ≠ o → w ≠ r → cellAt (unify c x y) w = cellAt c w) := by
  obtain ⟨o, r, hor, hlen, hpart, hco, hcr, hoth, hsign, hsize⟩ :=
    unify_full hx hy hxy hxl hyl
  refine ⟨o, r, hor, hsize, hco, by rw [hcr]; omega, by rw [hcr]; omega, ?_, ?_, hoth⟩
  · rcases hor with ⟨ho, hr2⟩ | ⟨ho, hr2⟩
    · rw [hr2]
      exact (hpart x x).mpr (Or.inl ⟨.root hx, by rw [ho]; exact hxy⟩)
    · rw [hr2]
      exact (hpart x y).mpr (Or.inr ⟨by rw [ho]; exact .root hx, hr2.symm⟩)
  · rcases hor with ⟨ho, hr2⟩ | ⟨ho, hr2⟩
    · rw [hr2]
      exact (hpart y x).mpr (Or.inr ⟨by rw [ho]; exact .root hy, hr2.symm⟩)
    · rw [hr2]
      exact (hpart y y).mpr (Or.inl ⟨.root hy, by rw [ho]; exact fun he => hxy he.symm⟩)

/-- Cell `y` is visited by the link-chasing loop started at `x`: it lies on
the link chain from `x` and is itself a non-root (the root is excluded). -/
def ChainVisited (c : Cells) (x y : Nat) : Prop :=
  ∃ i, iterChain c x i = y ∧ ∀ j, j ≤ i → 0 ≤ cellAt c (iterChain c x j)

/-- C8: when every chain terminates at a root (and links stay in the array),
`base x` terminates and returns the root reached by chaining from `x`;
afterwards every cell visited on the chain from `x` (the root excluded)
points directly at that root, and every other entry is unchanged. -/
theorem base_resolves (c : Cells) (x : Nat)
    (hlinks : ∀ w, w < c.length → 0 ≤ cellAt c w → nextCell c w < c.length)
    (hterm : ∀ w, w < c.length → ∃ r, Reaches c w r)
    (hx : x < c.length) :
    Reaches c x (base c x).1
    ∧ cellAt c (base c x).1 < 0
    ∧ (base c x).2.length = c.length
    ∧ (∀ y, ChainVisited c x y → cellAt (base c x).2 y = ((base c x).1 : Int))
    ∧ (∀ y, ¬ ChainVisited c x y → cellAt (base c x).2 y = cellAt c y) := by
  obtain ⟨r0, hr0⟩ := hterm x hx
  obtain ⟨k, hk⟩ := hr0.toIn
  have hklen : k ≤ c.length := reachesIn_le_length hk hx hlinks
  have hchase : chase c (c.length + 1) x = r0 := chase_eq hk _ (by omega)
  have hb1 : (base c x).1 = r0 := by rw [base, hchase]
  have hb2 : (base c x).2 = snap c x (c.length + 1) r0 := by rw [base, hchase]
  obtain ⟨hlen, hon, hoff⟩ := snap_spec k c x hk (c.length + 1) (by omega)
  have hvis : ∀ y, ChainVisited c x y ↔ ∃ i, i < k ∧ iterChain c x i = y := by
    intro y
    constructor
    · rintro ⟨i, hiy, hnr⟩
      refine ⟨i, ?_, hiy⟩
      by_contra hik
      have hragain := hnr k (by omega)
      rw [iterChain_last hk] at hragain
      have := hr0.root_lt
      omega
    · rintro ⟨i, hik, hiy⟩
      refine ⟨i, hiy, ?_⟩
      intro j hj
      have hstep := reachesIn_iterate hk j (by omega)
      obtain ⟨k2, hk2⟩ : ∃ k2, k - j = k2 + 1 := ⟨k - j - 1, by omega⟩
      rw [hk2] at hstep
      cases hstep with
      | step hge _ => exact hge
  rw [hb1, hb2]
  refine ⟨hr0, hr0.root_lt, hlen, ?_, ?_⟩
  · intro y hy
    obtain ⟨i, hik, hiy⟩ := (hvis y).mp hy
    rw [← hiy]
    exact hon i hik
  · intro y hy
    refine hoff y ?_
    intro i hik he
    exact hy ((hvis y).mpr ⟨i, hik, he⟩)

/-! ## The three-pass bucket shuffle (`shuffle_walls`) -/

/-- One distribution loop of `shuffle_walls`: pop each wall off the input
list and push it onto bucket `Random() & 1023`.  `rng t` is the value of the
`t`-th `Random()` call; the counter threads through the passes. -/
def distribute (rng : Nat → Nat) : Nat → List Wall → List (List Wall) → Nat × List (List Wall)
  | t, [], hs => (t, hs)
  | t, p :: ps, hs =>
      distribute rng (t + 1) ps (hs.set (rng t &&& 1023) (p :: hs.getD (rng t &&& 1023) []))

/-- A redistribution pass: drain bucket `0`, then bucket `1`, … , pushing
each wall onto a fresh bucket array. -/
def redistrib (rng : Nat → Nat) : Nat → List (List Wall) → List (List Wall) → Nat × List (List Wall)
  | t, [], acc => (t, acc)
  | t, b :: bs, acc =>
      redistrib rng (distribute rng t b acc).1 bs (distribute rng t b acc).2

/-- The C `shuffle_walls`: three passes of 1024-way random bucketing
(`walls → head1 → head2 → head1`), then concatenation of the buckets in
index order (empty buckets are skipped, which concatenation reproduces). -/
def shuffle_walls (rng : Nat → Nat) (ws : List Wall) : List Wall :=
  ((redistrib rng
      (redistrib rng
        (distribute rng 0 ws (List.replicate 1024 [])).1
        (distribute rng 0 ws (List.replicate 1024 [])).2
        (List.replicate 1024 [])).1
      (redistrib rng
        (distribute rng 0 ws (List.replicate 1024 [])).1
        (distribute rng 0 ws (List.replicate 1024 [])).2
        (List.replicate 1024 [])).2
      (List.replicate 1024 [])).2).flatten

theorem set_cons_flatten_perm :
    ∀ (hs : List (List Wall)) (k : Nat), k < hs.length → ∀ w : Wall,
    ((hs.set k (w :: hs.getD k [])).flatten).Perm (w :: hs.flatten) := by
  intro hs
  induction hs with
  | nil => intro k hk; simp at hk
  | cons h rest ih =>
    intro k hk w
    rcases k with _ | k2
    · simp [List.flatten]
    · simp only [List.set_cons_succ, List.flatten_cons, List.getD_cons_succ]
      have hper := ih k2 (by simpa using hk) w
      exact (List.Perm.append_left h hper).trans List.perm_middle

theorem distribute_spec (rng : Nat → Nat) :
    ∀ (ws : List Wall) (t : Nat) (hs : List (List Wall)), hs.length = 1024 →
    ((distribute rng t ws hs).2.flatten).Perm (ws ++ hs.flatten)
    ∧ (distribute rng t ws hs).2.length = 1024 := by
  intro ws
  induction ws with
  | nil => intro t hs hlen; exact ⟨List.Perm.refl _, hlen⟩
  | cons p ps ih =>
    intro t hs hlen
    have hk : rng t &&& 1023 < hs.length := by
      have := Nat.and_le_right (n := rng t) (m := 1023)
      omega
    have hset := set_cons_flatten_perm hs (rng t &&& 1023) hk p
    have hlen2 : (hs.set (rng t &&& 1023) (p :: hs.getD (rng t &&& 1023) [])).length = 1024 := by
      rw [List.length_set]
      exact hlen
    obtain ⟨hrec, hreclen⟩ := ih (t + 1) _ hlen2
    refine ⟨?_, by rw [distribute]; exact hreclen⟩
    rw [distribute]
    refine hrec.trans ?_
    refine (List.Perm.append_left ps hset).trans ?_
    exact List.perm_middle

theorem redistrib_spec (rng : Nat → Nat) :
    ∀ (bs : List (List Wall)) (t : Nat) (acc : List (List Wall)), acc.length = 1024 →
    ((redistrib rng t bs acc).2.flatten).Perm (bs.flatten ++ acc.flatten)
    ∧ (redistrib rng t bs acc).2.length = 1024 := by
  intro bs
  induction bs with
  | nil => intro t acc hlen; exact ⟨List.Perm.refl _, hlen⟩
  | cons b rest ih =>
    intro t acc hlen
    obtain ⟨hd, hdlen⟩ := distribute_spec rng b t acc hlen
    obtain ⟨hr, hrlen⟩ := ih (distribute rng t b acc).1 _ hdlen
    refine ⟨?_, by rw [redistrib]; exact hrlen⟩
    rw [redistrib]
    refine hr.trans ?_
    refine (List.Perm.append_left rest.flatten hd).trans ?_
    have hassoc : rest.flatten ++ (b ++ acc.flatten)
        = (rest.flatten ++ b) ++ acc.flatten := (List.append_assoc _ _ _).symm
    rw [hassoc, List.flatten_cons]
    exact List.Perm.append_right acc.flatten List.perm_append_comm

theorem flatten_replicate_nil_eq : ∀ k : Nat, (List.replicate k ([] : List Wall)).flatten = [] := by
  intro k
  induction k with
  | zero => rfl
  | succ k ih => rw [List.replicate_succ, List.flatten_cons, List.nil_append, ih]

/-- C5: the three bucket-redistribution passes and the final concatenation
lose no wall and duplicate none: the output sequence of `shuffle_walls` is a
permutation of its input, for every random sequence. -/
theorem shuffle_walls_perm (rng : Nat → Nat) (ws : List Wall) :
    (shuffle_walls rng ws).Perm ws := by
  have hrep : (List.replicate 1024 ([] : List Wall)).length = 1024 := List.length_replicate _ _
  have hrepf : (List.replicate 1024 ([] : List Wall)).flatten = [] := flatten_replicate_nil_eq 1024
  obtain ⟨h1, h1len⟩ := distribute_spec rng ws 0 (List.replicate 1024 []) hrep
  obtain ⟨h2, h2len⟩ := redistrib_spec rng
    (distribute rng 0 ws (List.replicate 1024 [])).2
    (distribute rng 0 ws (List.replicate 1024 [])).1 (List.replicate 1024 []) hrep
  obtain ⟨h3, h3len⟩ := redistrib_spec rng
    (redistrib rng (distribute rng 0 ws (List.replicate 1024 [])).1
      (distribute rng 0 ws (List.replicate 1024 [])).2 (List.replicate 1024 [])).2
    (redistrib rng (distribute rng 0 ws (List.replicate 1024 [])).1
      (distribute rng 0 ws (List.replicate 1024 [])).2 (List.replicate 1024 [])).1
    (List.replicate 1024 []) hrep
  unfold shuffle_walls
  rw [hrepf] at h1 h2 h3
  rw [List.append_nil] at h1 h2 h3
  exact h3.trans (h2.trans h1)

/-! ## The weighted tree-diameter analysis (`analyse_tree`) -/

/-- A rooted tree node: cell id plus ordered children (the `kids` array of
the C `node`, as finalized by `build_tree`). -/
inductive NTree where
  | mk (id : Nat) (kids : List NTree)

/-- The five fields `analyse_tree` fills in for one node.  The pointer fields
`first`, `second`, `furthest` are modelled by the pointed-to cell id. -/
structure Ana where
  first : Nat
  second : Nat
  furthest : Nat
  length : Nat
  distance : Nat
deriving DecidableEq, Repr

/-- The loop state of `analyse_tree`: biggest and next-biggest child distance
(`d1`,`d2`), longest child path (`l1`), and the child nodes achieving them
(`dn1`,`dn2`,`ln1`; `none` is the C null pointer). -/
structure AnaLoop where
  d1 : Nat
  d2 : Nat
  l1 : Nat
  dn1 : Option Ana
  dn2 : Option Ana
  ln1 : Option Ana
deriving DecidableEq, Repr

/-- One iteration of the `while (--i>=0)` loop of `analyse_tree`, processing
the (already analysed) child `a`. -/
def anaStep (st : AnaLoop) (a : Ana) : AnaLoop :=
  let st1 := if st.l1 ≤ a.length then { st with l1 := a.length, ln1 := some a } else st
  if st1.d1 ≤ a.distance then
    { st1 with d2 := st1.d1, dn2 := st1.dn1, d1 := a.distance, dn1 := some a }
  else if st1.d2 ≤ a.distance then
    { st1 with d2 := a.distance, dn2 := some a }
  else st1

/-- The default used for the (unreachable under `kids ≠ []`) null-pointer
dereference of `dn1`/`ln1`. -/
def anaJunk : Ana := ⟨0, 0, 0, 0, 0⟩

mutual
/-- The C `analyse_tree`, as a function from the (already built) subtree to
the five fields it stores in its root node.  Children are processed from the
last index down to `0`, exactly as the C loop does. -/
def analyse : NTree → Ana
  | .mk id [] => ⟨id, id, id, 0, 0⟩
  | .mk id (k :: ks) =>
    let kas := analyseList (k :: ks)
    let st := kas.reverse.foldl anaStep ⟨0, 0, 0, none, none, none⟩
    let d1 := st.d1 + (k :: ks).length
    let d2 := st.d2 + (k :: ks).length
    if st.l1 < d1 + d2 then
      { distance := d1, furthest := (st.dn1.getD anaJunk).furthest,
        length := d1 + d2, first := (st.dn1.getD anaJunk).furthest,
        second := match st.dn2 with | some a2 => a2.furthest | none => id }
    else
      { distance := d1, furthest := (st.dn1.getD anaJunk).furthest,
        length := st.l1, first := (st.ln1.getD anaJunk).first,
        second := (st.ln1.getD anaJunk).second }

def analyseList : List NTree → List Ana
  | [] => []
  | t :: ts => analyse t :: analyseList ts
end

theorem analyseList_eq_map : ∀ ts : List NTree, analyseList ts = ts.map analyse := by
  intro ts
  induction ts with
  | nil => rfl
  | cons t ts ih => rw [analyseList, ih, List.map_cons]

/-- Maximum of `f` over a list of analysis records (0 for the empty list),
mirroring how the loop accumulates `d1` and `l1` from initial value 0. -/
def maxOf (f : Ana → Nat) (l : List Ana) : Nat := l.foldr (fun a acc => max (f a) acc) 0

theorem maxOf_nil (f : Ana → Nat) : maxOf f [] = 0 := rfl

theorem maxOf_cons (f : Ana → Nat) (a : Ana) (l : List Ana) :
    maxOf f (a :: l) = max (f a) (maxOf f l) := rfl

theorem maxOf_append_singleton (f : Ana → Nat) (L : List Ana) (a : Ana) :
    maxOf f (L ++ [a]) = max (maxOf f L) (f a) := by
  induction L with
  | nil => simp [maxOf]
  | cons b L ih =>
    rw [List.cons_append, maxOf_cons, ih, maxOf_cons, Nat.max_assoc]

theorem le_maxOf {f : Ana → Nat} {l : List Ana} {a : Ana} (h : a ∈ l) :
    f a ≤ maxOf f l := by
  induction l with
  | nil => cases h
  | cons b l ih =>
    rw [maxOf_cons]
    rcases List.mem_cons.mp h with rfl | h2
    · omega
    · have := ih h2
      omega

theorem maxOf_perm {f : Ana → Nat} {l₁ l₂ : List Ana} (h : l₁.Perm l₂) :
    maxOf f l₁ = maxOf f l₂ := by
  induction h with
  | nil => rfl
  | cons a _ ih => rw [maxOf_cons, maxOf_cons, ih]
  | swap a b l => rw [maxOf_cons, maxOf_cons, maxOf_cons, maxOf_cons]; omega
  | trans _ _ ih1 ih2 => rw [ih1, ih2]

theorem exists_maxOf {f : Ana → Nat} {l : List Ana} (h : l ≠ []) :
    ∃ a ∈ l, f a = maxOf f l := by
  induction l with
  | nil => exact absurd rfl h
  | cons b l ih =>
    by_cases hne : l = []
    · subst hne
      exact ⟨b, List.mem_cons_self b [], by rw [maxOf_cons, maxOf_nil]; omega⟩
    · obtain ⟨a, ha, hfa⟩ := ih hne
      rw [maxOf_cons]
      rcases Nat.le_total (f b) (maxOf f l) with hle | hle
      · exact ⟨a, List.mem_cons_of_mem b ha, by omega⟩
      · exact ⟨b, List.mem_cons_self b l, by omega⟩

/-- Everything the `analyse_tree` loop guarantees after processing the
analysed children `L` (in processing order). -/
def LoopInv (L : List Ana) (st : AnaLoop) : Prop :=
  st.d1 = maxOf (fun a => a.distance) L
  ∧ st.l1 = maxOf (fun a => a.length) L
  ∧ st.d2 ≤ st.d1
  ∧ (L = [] → st = ⟨0, 0, 0, none, none, none⟩)
  ∧ (L ≠ [] → ∃ a ∈ L, st.dn1 = some a ∧ a.distance = st.d1)
  ∧ (L ≠ [] → ∃ b ∈ L, st.ln1 = some b ∧ b.length = st.l1)
  ∧ (L.length = 1 → st.dn2 = none ∧ st.d2 = 0)
  ∧ (2 ≤ L.length → ∃ a₁ a₂ rest, L.Perm (a₁ :: a₂ :: rest)
      ∧ st.dn1 = some a₁ ∧ st.dn2 = some a₂
      ∧ a₁.distance = st.d1 ∧ a₂.distance = st.d2
      ∧ st.d2 = maxOf (fun a => a.distance) (a₂ :: rest))

/-- Explicit form of one loop iteration. -/
theorem anaStep_eq (st : AnaLoop) (a : Ana) :
    anaStep st a =
      if st.d1 ≤ a.distance then
        ⟨a.distance, st.d1, if st.l1 ≤ a.length then a.length else st.l1, some a, st.dn1,
          if st.l1 ≤ a.length then some a else st.ln1⟩
      else if st.d2 ≤ a.distance then
        ⟨st.d1, a.distance, if st.l1 ≤ a.length then a.length else st.l1, st.dn1, some a,
          if st.l1 ≤ a.length then some a else st.ln1⟩
      else
        ⟨st.d1, st.d2, if st.l1 ≤ a.length then a.length else st.l1, st.dn1, st.dn2,
          if st.l1 ≤ a.length then some a else st.ln1⟩ := by
  unfold anaStep
  dsimp only
  split_ifs <;> rfl

theorem anaFold_inv : ∀ L : List Ana, LoopInv L (L.foldl anaStep ⟨0, 0, 0, none, none, none⟩) := by
  intro L
  induction L using List.reverseRecOn with
  | nil =>
    refine ⟨rfl, rfl, le_refl 0, fun _ => rfl, ?_, ?_, ?_, ?_⟩ <;> simp
  | append_singleton L a ih =>
    rw [List.foldl_append, List.foldl_cons, List.foldl_nil]
    set st := L.foldl anaStep ⟨0, 0, 0, none, none, none⟩ with hst
    obtain ⟨hd1, hl1, hd21, hnil, hdn1, hln1, hone, htwo⟩ := ih
    have hLpne : L ++ [a] ≠ [] := by simp
    have hlen : (L ++ [a]).length = L.length + 1 := by simp
    have hmaxd := maxOf_append_singleton (fun x => x.distance) L a
    have hmaxl := maxOf_append_singleton (fun x => x.length) L a
    rw [anaStep_eq]
    set l1' := if st.l1 ≤ a.length then a.length else st.l1 with hl1x
    set ln1' := if st.l1 ≤ a.length then some a else st.ln1 with hln1x
    have hl1'v : l1' = maxOf (fun x => x.length) (L ++ [a]) := by
      rw [hmaxl, ← hl1, hl1x]
      split_ifs <;> omega
    have hln1'v : ∃ b ∈ L ++ [a], ln1' = some b ∧ b.length = l1' := by
      rw [hln1x, hl1x]
      by_cases hc : st.l1 ≤ a.length
      · exact ⟨a, by simp, by rw [if_pos hc], by rw [if_pos hc]⟩
      · have hLne : L ≠ [] := by
          rintro rfl
          rw [hnil rfl] at hc
          simp at hc
        obtain ⟨b, hb, hbln, hblen⟩ := hln1 hLne
        exact ⟨b, by simp [hb], by rw [if_neg hc, hbln], by rw [if_neg hc]; omega⟩
    by_cases hA : st.d1 ≤ a.distance
    · rw [if_pos hA]
      refine ⟨by simp [hmaxd, ← hd1] <;> omega, by simpa using hl1'v, by simp <;> omega,
        fun h => absurd h hLpne,
        fun _ => ⟨a, by simp, rfl, by simp [hmaxd, ← hd1] <;> omega⟩,
        fun _ => hln1'v, ?_, ?_⟩
      · intro h1
        have hL0 : L = [] := List.length_eq_zero.mp (by omega)
        rw [hnil hL0]
        exact ⟨rfl, rfl⟩
      · intro h2
        rw [hlen] at h2
        rcases Nat.lt_or_ge L.length 2 with hsmall | hbig
        · have hL1 : L.length = 1 := by omega
          have hLne : L ≠ [] := by
            rintro rfl
            simp at hL1
          obtain ⟨a0, ha0, ha0dn, ha0d⟩ := hdn1 hLne
          obtain ⟨hdn2, hd20⟩ := hone hL1
          obtain ⟨b0, hb0⟩ := List.length_eq_one.mp hL1
          have ha0b : a0 = b0 := by
            rw [hb0] at ha0
            simpa using ha0
          refine ⟨a, a0, [], ?_, rfl, by simp [ha0dn], by simp, by simp [ha0d], ?_⟩
          · rw [hb0, ← ha0b]
            exact List.perm_append_comm
          · rw [maxOf_cons, maxOf_nil]
            simp [ha0d]
        · obtain ⟨a₁, a₂, rest, hperm, h1, h2, h3, h4, h5⟩ := htwo hbig
          refine ⟨a, a₁, a₂ :: rest, ?_, rfl, by simp [h1], by simp, by simp [h3], ?_⟩
          · exact (List.perm_append_comm).trans (List.Perm.cons a hperm)
          · rw [maxOf_cons, ← h5]
            simp [h3]
            omega
    · have hLne : L ≠ [] := by
        rintro rfl
        rw [hnil rfl] at hA
        simp at hA
      obtain ⟨a₁0, ha₁0, ha₁0dn, ha₁0d⟩ := hdn1 hLne
      have hd1v : maxOf (fun x => x.distance) (L ++ [a]) = st.d1 := by
        rw [hmaxd, ← hd1]
        omega
      rw [if_neg hA]
      by_cases hB : st.d2 ≤ a.distance
      · rw [if_pos hB]
        refine ⟨by simpa using hd1v.symm, by simpa using hl1'v, by simp <;> omega,
          fun h => absurd h hLpne,
          fun _ => ⟨a₁0, by simp [ha₁0], by simpa using ha₁0dn, by simp [hd1v, ha₁0d]⟩,
          fun _ => hln1'v, ?_, ?_⟩
        · intro h1
          rw [hlen] at h1
          exact absurd (List.length_eq_zero.mp (by omega)) hLne
        · intro h2
          rw [hlen] at h2
          rcases Nat.lt_or_ge L.length 2 with hsmall | hbig
          · have hL1 : L.length = 1 := by omega
            obtain ⟨b0, hb0⟩ := List.length_eq_one.mp hL1
            have ha₁b : a₁0 = b0 := by
              rw [hb0] at ha₁0
              simpa using ha₁0
            refine ⟨a₁0, a, [], ?_, by simpa using ha₁0dn, by simp,
              by simp [hd1v, ha₁0d], by simp, ?_⟩
            · rw [hb0, ← ha₁b]
              exact List.Perm.refl _
            · rw [maxOf_cons, maxOf_nil]
              simp
          · obtain ⟨a₁, a₂, rest, hperm, h1, h2, h3, h4, h5⟩ := htwo hbig
            refine ⟨a₁, a, a₂ :: rest, ?_, by simpa using h1, by simp,
              by simp [hd1v, h3], by simp, ?_⟩
            · refine (List.perm_append_comm).trans ?_
              exact (List.Perm.cons a hperm).trans (List.Perm.swap a₁ a _)
            · rw [maxOf_cons, ← h5]
              simp
              omega
      · rw [if_neg hB]
        refine ⟨by simpa using hd1v.symm, by simpa using hl1'v, by simp <;> omega,
          fun h => absurd h hLpne,
          fun _ => ⟨a₁0, by simp [ha₁0], by simpa using ha₁0dn, by simp [hd1v, ha₁0d]⟩,
          fun _ => hln1'v, ?_, ?_⟩
        · intro h1
          rw [hlen] at h1
          exact absurd (List.length_eq_zero.mp (by omega)) hLne
        · intro h2
          rw [hlen] at h2
          rcases Nat.lt_or_ge L.length 2 with hsmall | hbig
          · have hL1 : L.length = 1 := by omega
            obtain ⟨_, hd20⟩ := hone hL1
            omega
          · obtain ⟨a₁, a₂, rest, hperm, h1, h2, h3, h4, h5⟩ := htwo hbig
            refine ⟨a₁, a₂, rest ++ [a], ?_, by simpa using h1, by simpa using h2,
              by simp [hd1v, h3], by simp [h4], ?_⟩
            · refine (List.Perm.append_right [a] hperm).trans ?_
              simp
            · have hms : maxOf (fun x => x.distance) (a₂ :: (rest ++ [a]))
                  = max (maxOf (fun x => x.distance) (a₂ :: rest)) a.distance := by
                have h6 := maxOf_append_singleton (fun x => x.distance) (a₂ :: rest) a
                rw [List.cons_append] at h6
                exact h6
              rw [hms, ← h5]
              simp
              omega

theorem maxOf_le {f : Ana → Nat} {l : List Ana} {v : Nat} (h : ∀ a ∈ l, f a ≤ v) :
    maxOf f l ≤ v := by
  induction l with
  | nil => simp [maxOf_nil]
  | cons b l ih =>
    rw [maxOf_cons]
    have h1 := h b (List.mem_cons_self b l)
    have h2 := ih fun a ha => h a (List.mem_cons_of_mem b ha)
    omega

/-- Unfolding of `analyse` at an internal node. -/
theorem analyse_cons_eq (id : Nat) (k : NTree) (ks : List NTree) :
    analyse (.mk id (k :: ks)) =
      (if (((k :: ks).map analyse).reverse.foldl anaStep ⟨0, 0, 0, none, none, none⟩).l1
          < ((((k :: ks).map analyse).reverse.foldl anaStep ⟨0, 0, 0, none, none, none⟩).d1
              + (k :: ks).length)
            + ((((k :: ks).map analyse).reverse.foldl anaStep ⟨0, 0, 0, none, none, none⟩).d2
              + (k :: ks).length) then
        ⟨(((((k :: ks).map analyse).reverse.foldl anaStep
              ⟨0, 0, 0, none, none, none⟩).dn1).getD anaJunk).furthest,
          match ((((k :: ks).map analyse).reverse.foldl anaStep
              ⟨0, 0, 0, none, none, none⟩)).dn2 with
            | some a2 => a2.furthest
            | none => id,
          (((((k :: ks).map analyse).reverse.foldl anaStep
              ⟨0, 0, 0, none, none, none⟩).dn1).getD anaJunk).furthest,
          ((((k :: ks).map analyse).reverse.foldl anaStep ⟨0, 0, 0, none, none, none⟩).d1
              + (k :: ks).length)
            + ((((k :: ks).map analyse).reverse.foldl anaStep ⟨0, 0, 0, none, none, none⟩).d2
              + (k :: ks).length),
          (((k :: ks).map analyse).reverse.foldl anaStep ⟨0, 0, 0, none, none, none⟩).d1
              + (k :: ks).length⟩
      else
        ⟨(((((k :: ks).map analyse).reverse.foldl anaStep
              ⟨0, 0, 0, none, none, none⟩).ln1).getD anaJunk).first,
          (((((k :: ks).map analyse).reverse.foldl anaStep
              ⟨0, 0, 0, none, none, none⟩).ln1).getD anaJunk).second,
          (((((k :: ks).map analyse).reverse.foldl anaStep
              ⟨0, 0, 0, none, none, none⟩).dn1).getD anaJunk).furthest,
          (((k :: ks).map analyse).reverse.foldl anaStep ⟨0, 0, 0, none, none, none⟩).l1,
          (((k :: ks).map analyse).reverse.foldl anaStep ⟨0, 0, 0, none, none, none⟩).d1
              + (k :: ks).length⟩) := by
  rw [analyse, analyseList_eq_map]

/-- C3: the combination rule of `analyse_tree`.  A leaf gets
`distance = length = 0` with all pointer fields itself.  An internal node
with at least two children: with `d1 ≥ d2` the two largest child `distance`
values each incremented by the child count and `l1` the largest child
`length`, it gets `distance = d1` with `furthest` the top child's furthest;
if `d1 + d2 > l1` it gets `length = d1+d2` and `first`/`second` the
`furthest` leaves of the two top (distinct) children, otherwise `length`,
`first`, `second` are copied unchanged from a child achieving `l1`. -/
theorem analyse_tree_rule :
    (∀ id, analyse (.mk id []) = ⟨id, id, id, 0, 0⟩)
    ∧ (∀ id ks, 2 ≤ ks.length →
      ∃ a₁ a₂ rest, (ks.map analyse).Perm (a₁ :: a₂ :: rest)
        ∧ (∀ b ∈ ks.map analyse, b.distance ≤ a₁.distance)
        ∧ (∀ b ∈ a₂ :: rest, b.distance ≤ a₂.distance)
        ∧ (analyse (.mk id ks)).distance = a₁.distance + ks.length
        ∧ (analyse (.mk id ks)).furthest = a₁.furthest
        ∧ (maxOf (fun b => b.length) (ks.map analyse)
              < (a₁.distance + ks.length) + (a₂.distance + ks.length) →
            (analyse (.mk id ks)).length = (a₁.distance + ks.length) + (a₂.distance + ks.length)
            ∧ (analyse (.mk id ks)).first = a₁.furthest
            ∧ (analyse (.mk id ks)).second = a₂.furthest)
        ∧ ((a₁.distance + ks.length) + (a₂.distance + ks.length)
              ≤ maxOf (fun b => b.length) (ks.map analyse) →
            ∃ b ∈ ks.map analyse, b.length = maxOf (fun b => b.length) (ks.map analyse)
            ∧ (analyse (.mk id ks)).length = b.length
            ∧ (analyse (.mk id ks)).first = b.first
            ∧ (analyse (.mk id ks)).second = b.second)) := by
  refine ⟨fun id => by rw [analyse], ?_⟩
  intro id ks hks
  obtain ⟨k, ks2, rfl⟩ : ∃ k ks2, ks = k :: ks2 := by
    cases ks with
    | nil => simp at hks
    | cons k ks2 => exact ⟨k, ks2, rfl⟩
  set kas := ((k :: ks2).map analyse) with hkas
  obtain ⟨hd1, hl1, hd21, hnil2, hdn1, hln1, hone, htwo⟩ := anaFold_inv kas.reverse
  set st := kas.reverse.foldl anaStep ⟨0, 0, 0, none, none, none⟩ with hstdef
  have hrevperm : kas.reverse.Perm kas := List.reverse_perm kas
  have hlenr : kas.reverse.length = (k :: ks2).length := by
    rw [List.length_reverse, hkas, List.length_map]
  have hlen2 : 2 ≤ kas.reverse.length := by
    rw [hlenr]
    exact hks
  obtain ⟨a₁, a₂, rest, hperm, hn1, hn2, ha1d, ha2d, hd2max⟩ := htwo hlen2
  have hpermk : kas.Perm (a₁ :: a₂ :: rest) := hrevperm.symm.trans hperm
  have hd1k : st.d1 = maxOf (fun x => x.distance) kas := by
    rw [hd1]
    exact maxOf_perm hrevperm
  have hl1k : st.l1 = maxOf (fun x => x.length) kas := by
    rw [hl1]
    exact maxOf_perm hrevperm
  refine ⟨a₁, a₂, rest, hpermk, ?_, ?_, ?_, ?_, ?_, ?_⟩
  · intro b hb
    rw [ha1d, hd1k]
    exact le_maxOf hb
  · intro b hb
    rw [ha2d, hd2max]
    exact le_maxOf hb
  · rw [analyse_cons_eq, ← hkas, ← hstdef, ha1d]
    split_ifs <;> rfl
  · rw [analyse_cons_eq, ← hkas, ← hstdef, hn1]
    split_ifs <;> rfl
  · intro hcond
    have hcond2 : st.l1 < (st.d1 + (k :: ks2).length) + (st.d2 + (k :: ks2).length) := by
      rw [hl1k]
      rw [ha1d, ha2d] at hcond
      omega
    rw [analyse_cons_eq, ← hkas, ← hstdef, if_pos hcond2]
    exact ⟨by rw [ha1d, ha2d], by simp [hn1], by simp [hn2]⟩
  · intro hcond
    have hcond2 : ¬ (st.l1 < (st.d1 + (k :: ks2).length) + (st.d2 + (k :: ks2).length)) := by
      rw [hl1k]
      rw [ha1d, ha2d] at hcond
      omega
    rw [analyse_cons_eq, ← hkas, ← hstdef, if_neg hcond2]
    have hne : kas.reverse ≠ [] := by
      rw [← List.length_pos_iff_ne_nil, hlenr]
      simp
    obtain ⟨b, hb, hbln, hblen⟩ := hln1 hne
    refine ⟨b, (List.mem_reverse).mp hb, by rw [hblen, hl1k], ?_, ?_, ?_⟩
    · rw [hbln]
      simp [hblen]
    · rw [hbln]
      rfl
    · rw [hbln]
      rfl

/-- The `distance` field an internal node receives: largest child distance
plus the node's child count. -/
theorem analyse_distance (id : Nat) (k : NTree) (ks : List NTree) :
    (analyse (.mk id (k :: ks))).distance
      = maxOf (fun b => b.distance) ((k :: ks).map analyse) + (k :: ks).length := by
  obtain ⟨hd1, _, _, _, _, _, _, _⟩ := anaFold_inv (((k :: ks).map analyse).reverse)
  have : maxOf (fun a => a.distance) (((k :: ks).map analyse).reverse)
      = maxOf (fun a => a.distance) ((k :: ks).map analyse) :=
    maxOf_perm (List.reverse_perm _)
  rw [analyse_cons_eq]
  split_ifs <;> simp only [] <;> rw [hd1, this]

/-- C4 (amended): on a star tree whose root has `k` leaf children, the
root's `distance` field equals `k` -- the branching-weighted distance from
the root to each leaf -- while each leaf node's own `distance` field is `0`
(`analyse_tree` stores `0` in every leaf). -/
theorem analyse_star (r : Nat) (ids : List Nat) :
    (analyse (.mk r (ids.map fun i => NTree.mk i []))).distance = ids.length
    ∧ ∀ i ∈ ids, (analyse (.mk i [])).distance = 0 := by
  refine ⟨?_, fun i _ => by rw [analyse]⟩
  cases ids with
  | nil => rw [List.map_nil, analyse]; rfl
  | cons i ids2 =>
    rw [List.map_cons, analyse_distance]
    have hz : maxOf (fun b => b.distance)
        ((NTree.mk i [] :: ids2.map fun j => NTree.mk j []).map analyse) = 0 := by
      have hle : ∀ b ∈ (NTree.mk i [] :: ids2.map fun j => NTree.mk j []).map analyse,
          b.distance ≤ 0 := by
        intro b hb
        obtain ⟨t, ht, rfl⟩ := List.mem_map.mp hb
        rcases List.mem_cons.mp ht with rfl | ht2
        · rw [analyse]
        · obtain ⟨j, _, rfl⟩ := List.mem_map.mp ht2
          rw [analyse]
      exact Nat.le_antisymm (maxOf_le hle) (Nat.zero_le _)
    rw [hz]
    simp

/-- C10: a node with exactly one child, in the branch where the path passes
through the node (`d1 + d2 > l1`, with `d2` just the child count `1` because
there is no second child), gets its `second` field set to the node itself
rather than to a leaf; hence the endpoint pair reported at the root need not
consist of two leaf cells. -/
theorem analyse_one_child_second (id : Nat) (k : NTree)
    (h : (analyse k).length < (analyse k).distance + 2) :
    (analyse (.mk id [k])).second = id := by
  obtain ⟨hd1, hl1, _, _, _, _, hone, _⟩ := anaFold_inv (([k].map analyse).reverse)
  have hlen1 : (([k].map analyse).reverse).length = 1 := by simp
  obtain ⟨hdn2, hd20⟩ := hone hlen1
  have hd1v : (([k].map analyse).reverse.foldl anaStep ⟨0, 0, 0, none, none, none⟩).d1
      = (analyse k).distance := by
    rw [hd1]
    simp [maxOf, List.foldr]
  have hl1v : (([k].map analyse).reverse.foldl anaStep ⟨0, 0, 0, none, none, none⟩).l1
      = (analyse k).length := by
    rw [hl1]
    simp [maxOf, List.foldr]
  have hcond : (([k].map analyse).reverse.foldl anaStep ⟨0, 0, 0, none, none, none⟩).l1
      < ((([k].map analyse).reverse.foldl anaStep ⟨0, 0, 0, none, none, none⟩).d1
          + ([k] : List NTree).length)
        + ((([k].map analyse).reverse.foldl anaStep ⟨0, 0, 0, none, none, none⟩).d2
          + ([k] : List NTree).length) := by
    rw [hd1v, hl1v, hd20]
    simpa using h
  have hdn2x : (anaStep ⟨0, 0, 0, none, none, none⟩ (analyse k)).dn2 = none := by
    simpa using hdn2
  rw [analyse_cons_eq, if_pos hcond]
  simp [hdn2x]

/-! ## Seeding (`init_rand`) -/

/-- The default (non-SUN) `init_rand`: the value actually passed to
`srand`.  The user-supplied `seed` is taken as a parameter, but — exactly as
in the C code — the assignment `seed = clock() + time(0)` overwrites it
unconditionally before the `& 0x7FFFFFFF` mask.  Clock and time readings are
modelled as naturals. -/
def init_rand_default (seed clockv timev : Nat) : Nat :=
  (clockv + timev) &&& 0x7FFFFFFF

/-- The SUN variant of `init_rand`: the time/process-derived value is used
only when `seed` is zero, matching the documented intent. -/
def init_rand_sun (seed t_time t_millitm pid : Nat) : Nat :=
  (if seed = 0 then (t_time <<< 8) + t_millitm + (pid <<< 16) else seed) &&& 0x7FFFFFFF

/-- C2 (code bug): in the default build the seed handed to `srand` does not
depend on the user-supplied seed at all — `init_rand` overwrites it with
`clock()+time(0)` — and two runs with the same supplied seed `42` but
different clock readings are seeded differently, so byte-identical output
across runs is not guaranteed.  This contradicts the comment above
`init_rand` ("If `seed` is non-zero, we use that directly as our seed.")
and the specified behaviour. -/
theorem init_rand_ignores_seed :
    (∀ s₁ s₂ c t, init_rand_default s₁ c t = init_rand_default s₂ c t)
    ∧ init_rand_default 42 1000 2000 ≠ init_rand_default 42 1001 2000 := by
  exact ⟨fun _ _ _ _ => rfl, by decide⟩

/-- On the SUN branch a non-zero supplied seed is used directly (masked),
matching the documented behaviour — the defect is only in the default
branch. -/
theorem init_rand_sun_honors_seed (s t1 t2 p : Nat) (hs : s ≠ 0) :
    init_rand_sun s t1 t2 p = s &&& 0x7FFFFFFF := by
  rw [init_rand_sun, if_neg hs]

/-! ## Edge-list connectivity and forests -/

/-- One step along a wall of `E`, in either direction. -/
def EdgeStep (E : List Wall) (a b : Nat) : Prop := (a, b) ∈ E ∨ (b, a) ∈ E

/-- Cells joined by a chain of walls of `E` (the equivalence generated by
the edge list). -/
def conn (E : List Wall) : Nat → Nat → Prop := Relation.ReflTransGen (EdgeStep E)

theorem EdgeStep.flip2 {E : List Wall} {a b : Nat} (h : EdgeStep E a b) : EdgeStep E b a :=
  h.elim Or.inr Or.inl

theorem conn.refl {E : List Wall} (a : Nat) : conn E a a := Relation.ReflTransGen.refl

theorem conn.trans2 {E : List Wall} {a b c : Nat} (h1 : conn E a b) (h2 : conn E b c) :
    conn E a c := Relation.ReflTransGen.trans h1 h2

theorem conn.symm2 {E : List Wall} {a b : Nat} (h : conn E a b) : conn E b a := by
  induction h with
  | refl => exact Relation.ReflTransGen.refl
  | tail _ hstep ih =>
    exact Relation.ReflTransGen.trans (Relation.ReflTransGen.single hstep.flip2) ih

theorem conn.single {E : List Wall} {a b : Nat} (h : EdgeStep E a b) : conn E a b :=
  Relation.ReflTransGen.single h

theorem conn_mono {E E' : List Wall} (hsub : ∀ w, w ∈ E → w ∈ E') {a b : Nat}
    (h : conn E a b) : conn E' a b := by
  induction h with
  | refl => exact Relation.ReflTransGen.refl
  | tail _ hstep ih =>
    refine Relation.ReflTransGen.tail ih ?_
    rcases hstep with hm | hm
    · exact Or.inl (hsub _ hm)
    · exact Or.inr (hsub _ hm)

theorem conn_of_perm {E E' : List Wall} (hp : E.Perm E') {a b : Nat} :
    conn E a b ↔ conn E' a b :=
  ⟨conn_mono fun w hw => hp.mem_iff.mp hw, conn_mono fun w hw => hp.mem_iff.mpr hw⟩

/-- Decomposition: a chain using the extra wall `(x,y)` either avoids it or
crosses it (in one of the two directions). -/
theorem conn_cons_decomp {E : List Wall} {x y : Nat} :
    ∀ {a b : Nat}, conn ((x, y) :: E) a b →
      conn E a b ∨ (conn E a x ∧ conn E y b) ∨ (conn E a y ∧ conn E x b) := by
  intro a b h
  induction h with
  | refl => exact Or.inl (conn.refl a)
  | tail hab hstep ih =>
    rename_i c d
    have hstep2 : EdgeStep E c d ∨ (c = x ∧ d = y) ∨ (c = y ∧ d = x) := by
      rcases hstep with hm | hm
      · rcases List.mem_cons.mp hm with he | he
        · exact Or.inr (Or.inl ⟨congrArg Prod.fst he, congrArg Prod.snd he⟩)
        · exact Or.inl (Or.inl he)
      · rcases List.mem_cons.mp hm with he | he
        · exact Or.inr (Or.inr ⟨congrArg Prod.snd he, congrArg Prod.fst he⟩)
        · exact Or.inl (Or.inr he)
    rcases hstep2 with hs | ⟨hcx, hdy⟩ | ⟨hcy, hdx⟩
    · rcases ih with h1 | ⟨h1, h2⟩ | ⟨h1, h2⟩
      · exact Or.inl (h1.trans2 (conn.single hs))
      · exact Or.inr (Or.inl ⟨h1, h2.trans2 (conn.single hs)⟩)
      · exact Or.inr (Or.inr ⟨h1, h2.trans2 (conn.single hs)⟩)
    · rw [hdy]
      rw [hcx] at ih
      rcases ih with h1 | ⟨h1, h2⟩ | ⟨h1, h2⟩
      · exact Or.inr (Or.inl ⟨h1, conn.refl _⟩)
      · exact Or.inr (Or.inl ⟨h1, conn.refl _⟩)
      · exact Or.inl h1
    · rw [hdx]
      rw [hcy] at ih
      rcases ih with h1 | ⟨h1, h2⟩ | ⟨h1, h2⟩
      · exact Or.inr (Or.inr ⟨h1, conn.refl _⟩)
      · exact Or.inl h1
      · exact Or.inr (Or.inr ⟨h1, conn.refl _⟩)

/-- Appending walls whose endpoints are already connected does not connect
anything new. -/
theorem conn_append_redundant {E : List Wall} :
    ∀ {K : List Wall}, (∀ e ∈ K, conn E e.1 e.2) →
    ∀ {a b : Nat}, conn (E ++ K) a b → conn E a b := by
  intro K
  induction K with
  | nil =>
    intro _ a b h
    rw [List.append_nil] at h
    exact h
  | cons e K ih =>
    intro hred a b h
    have hperm : (E ++ e :: K).Perm (e :: (E ++ K)) := List.perm_middle
    rw [conn_of_perm hperm] at h
    have hred' : ∀ f ∈ K, conn E f.1 f.2 := fun f hf => hred f (List.mem_cons_of_mem e hf)
    have he : conn E e.1 e.2 := hred e (List.mem_cons_self e K)
    have he2 : conn ((e.1, e.2) :: (E ++ K)) a b := by
      have : (e.1, e.2) = e := rfl
      rw [this]
      exact h
    rcases conn_cons_decomp he2 with h1 | ⟨h1, h2⟩ | ⟨h1, h2⟩
    · exact ih hred' h1
    · exact ((ih hred' h1).trans2 he).trans2 (ih hred' h2)
    · exact ((ih hred' h1).trans2 he.symm2).trans2 (ih hred' h2)

/-- Kruskal's invariant on the trace of removed walls (newest first): each
wall joined two previously unconnected cells. -/
inductive Forest : List Wall → Prop where
  | nil : Forest []
  | grow {E : List Wall} {a b : Nat} : Forest E → ¬ conn E a b → Forest ((a, b) :: E)

/-- Every wall of a forest is a bridge: removing it disconnects its
endpoints. -/
theorem Forest.bridge : ∀ {E F G : List Wall} {a b : Nat},
    Forest E → E = F ++ (a, b) :: G → ¬ conn (F ++ G) a b := by
  intro E F G a b hf
  induction hf generalizing F G with
  | nil =>
    intro he
    simp at he
  | grow hfE hnc ih =>
    rename_i E2 x y
    intro he
    cases F with
    | nil =>
      rw [List.nil_append] at he ⊢
      injection he with h1 h2
      have hx : x = a := congrArg Prod.fst h1
      have hy : y = b := congrArg Prod.snd h1
      rw [← h2, ← hx, ← hy]
      exact hnc
    | cons f F2 =>
      rw [List.cons_append] at he
      injection he with hf1 hf2
      have ihm := ih hf2
      rw [List.cons_append]
      intro hcon
      have hcon2 : conn ((x, y) :: (F2 ++ G)) a b := by
        rw [hf1]
        exact hcon
      have hsub : ∀ w, w ∈ F2 ++ G → w ∈ F2 ++ (a, b) :: G := by
        intro w hw
        rcases List.mem_append.mp hw with h | h
        · exact List.mem_append.mpr (Or.inl h)
        · exact List.mem_append.mpr (Or.inr (List.mem_cons_of_mem _ h))
      have hedge : conn (F2 ++ (a, b) :: G) a b :=
        conn.single (Or.inl (by simp))
      rcases conn_cons_decomp hcon2 with h1 | ⟨h1, h2⟩ | ⟨h1, h2⟩
      · exact ihm h1
      · refine hnc ?_
        rw [hf2]
        exact ((conn_mono hsub h1.symm2).trans2 hedge).trans2 (conn_mono hsub h2.symm2)
      · refine hnc ?_
        rw [hf2]
        exact ((conn_mono hsub h2).trans2 hedge.symm2).trans2 (conn_mono hsub h1)

/-! ## The carving loop (`create_maze`) -/

/-- Two cells are in the same disjoint-set component. -/
def same (c : Cells) (a b : Nat) : Prop := ∃ r, Reaches c a r ∧ Reaches c b r

/-- Number of component roots (negative entries). -/
def nroots (c : Cells) : Nat :=
  ((Finset.range c.length).filter (fun x => cellAt c x < 0)).card

theorem same_iff_reaches {c : Cells} {a ρ : Nat} (hρ : Reaches c a ρ) :
    ∀ b, (same c a b ↔ Reaches c b ρ) := by
  intro b
  constructor
  · rintro ⟨z, haz, hbz⟩
    have : z = ρ := haz.det hρ
    rw [← this]
    exact hbz
  · intro h
    exact ⟨ρ, hρ, h⟩

theorem same_roots_eq {c : Cells} {a b ρa ρb : Nat}
    (ha : Reaches c a ρa) (hb : Reaches c b ρb) :
    same c a b ↔ ρa = ρb := by
  constructor
  · rintro ⟨z, haz, hbz⟩
    rw [← haz.det ha, ← hbz.det hb]
  · intro h
    exact ⟨ρa, ha, h ▸ hb⟩

/-- The root a cell reaches stays inside the array. -/
theorem reaches_root_lt {c : Cells} {x r : Nat} (h : Reaches c x r)
    (hx : x < c.length)
    (hv : ∀ w, w < c.length → 0 ≤ cellAt c w → nextCell c w < c.length) :
    r < c.length := by
  obtain ⟨k, hk⟩ := h.toIn
  have := chain_cells_lt hk hx hv k (le_refl k)
  rwa [iterChain_last hk] at this

/-- Reading the exits bitmap (`nodes[x].exits`). -/
def exAt (ex : List Nat) (x : Nat) : Nat := ex.getD x 0

theorem exAt_set_ne {ex : List Nat} {i j : Nat} {v : Nat} (h : i ≠ j) :
    exAt (ex.set i v) j = exAt ex j := by
  simp [exAt, List.getD, List.getElem?_set_ne h]

theorem exAt_set_self {ex : List Nat} {i : Nat} {v : Nat} (h : i < ex.length) :
    exAt (ex.set i v) i = v := by
  simp [exAt, List.getD, List.getElem?_set_self, h]

/-- `nodes[i].exits |= m`. -/
def orExit (ex : List Nat) (i : Nat) (m : Nat) : List Nat :=
  ex.set i ((exAt ex i) ||| m)

/-- The `Add_exits` dispatch of `create_maze`: from the signed index delta of
a removed wall, the direction masks OR-ed into the `higher` and the `lower`
cell respectively (`Up=1, Down=2, LDown=4, RDown=8, LEq=16, REq=32, LUp=64,
RUp=128`; deltas matching no case add nothing). -/
def addExits (nr : Nat) (delta : Int) : Nat × Nat :=
  if delta = 1 then (2, 1)
  else if 0 < delta then
    (if delta - nr = -1 then (64, 8)
     else if delta - nr = 0 then (16, 32)
     else if delta - nr = 1 then (4, 128) else (0, 0))
  else
    (if delta + nr = -1 then (128, 4)
     else if delta + nr = 0 then (32, 16)
     else if delta + nr = 1 then (8, 64) else (0, 0))

/-- State of the carving loop: the union-find `cells`, the exits bitmaps,
the kept-wall list rebuilt through `q`, and (as a proof-side trace, newest
first) the walls removed so far. -/
structure MazeState where
  cells : Cells
  exits : List Nat
  kept : List Wall
  removedRev : List Wall

/-- One iteration of `create_maze`: resolve both endpoints (with path
compression); on distinct roots unify them and record the exits, otherwise
append the wall to the kept list. -/
def createStep (nr : Nat) (s : MazeState) (w : Wall) : MazeState :=
  let b1 := base s.cells w.1
  let b2 := base b1.2 w.2
  if b1.1 ≠ b2.1 then
    { cells := unify b2.2 b1.1 b2.1,
      exits := orExit (orExit s.exits w.2 (addExits nr ((w.2 : Int) - (w.1 : Int))).1)
                 w.1 (addExits nr ((w.2 : Int) - (w.1 : Int))).2,
      kept := s.kept,
      removedRev := w :: s.removedRev }
  else
    { cells := b2.2, exits := s.exits, kept := s.kept ++ [w], removedRev := s.removedRev }

/-- The C `create_maze`, fed the shuffled wall list, starting from the state
`init_cells` builds: every cell its own singleton component, all exit
bitmaps zero. -/
def create_maze (nr N : Nat) (ws : List Wall) : MazeState :=
  ws.foldl (createStep nr) ⟨List.replicate N (-1), List.replicate N 0, [], []⟩

theorem testBit_pow {k b : Nat} (hk : k < 8) :
    Nat.testBit (2 ^ k) b = true ↔ b = k := by
  rw [Nat.testBit_two_pow]
  simp [eq_comm]

theorem cell_lt {m n i j : Nat} (hi : i < m) (hj : j < n) : i * n + j < m * n := by
  have h1 : i * n + j < (i + 1) * n := by
    rw [Nat.succ_mul]
    omega
  have h2 : (i + 1) * n ≤ m * n := Nat.mul_le_mul_right n hi
  omega

/-- Endpoints of every emitted wall are distinct in-range cells. -/
theorem init_walls_bounds {m n : Nat} (hn : 2 ≤ n) {w : Wall}
    (hw : w ∈ init_walls m n) : w.1 < m * n ∧ w.2 < m * n ∧ w.1 ≠ w.2 := by
  rw [mem_init_walls_norm hn] at hw
  obtain ⟨i, j, hi, hj, h1, hcase⟩ := hw
  have hwlt : w.1 < m * n := by
    rw [h1]
    exact cell_lt hi hj
  rcases hcase with ⟨hpos, hcond, h2⟩ | ⟨hcond, h2⟩ | ⟨hlt, hcond, h2⟩
  · exact ⟨hwlt, by omega, by omega⟩
  · refine ⟨hwlt, ?_, by omega⟩
    have : w.2 = i * n + (j + 1) := by omega
    rw [this]
    exact cell_lt hi (by omega)
  · refine ⟨hwlt, ?_, by omega⟩
    have hsm : (i + 1) * n = i * n + n := Nat.succ_mul i n
    have : w.2 = (i + 1) * n + (j + i % 2) := by omega
    rw [this]
    refine cell_lt hlt ?_
    rcases hcond with hc | hc <;> omega

/-- The signed index delta of every emitted wall. -/
theorem init_walls_delta {m n : Nat} (hn : 2 ≤ n) {w : Wall}
    (hw : w ∈ init_walls m n) :
    ((w.2 : Int) - w.1 = 1) ∨ ((w.2 : Int) - w.1 = n) ∨ ((w.2 : Int) - w.1 = (n : Int) + 1)
    ∨ ((w.2 : Int) - w.1 = -(n : Int)) ∨ ((w.2 : Int) - w.1 = 1 - (n : Int)) := by
  rw [mem_init_walls_norm hn] at hw
  obtain ⟨i, j, hi, hj, h1, hcase⟩ := hw
  rcases hcase with ⟨hpos, hcond, h2⟩ | ⟨hcond, h2⟩ | ⟨hlt, hcond, h2⟩
  · rcases Nat.eq_or_lt_of_le (Nat.zero_le (i % 2)) with hp | hp
    · refine Or.inr (Or.inr (Or.inr (Or.inl ?_)))
      omega
    · have hp1 : i % 2 = 1 := by omega
      refine Or.inr (Or.inr (Or.inr (Or.inr ?_)))
      omega
  · exact Or.inl (by omega)
  · rcases Nat.eq_or_lt_of_le (Nat.zero_le (i % 2)) with hp | hp
    · exact Or.inr (Or.inl (by omega))
    · have hp1 : i % 2 = 1 := by omega
      exact Or.inr (Or.inr (Or.inl (by omega)))

/-- `addExits` on the five deltas a grid wall can have (`2 ≤ n`). -/
theorem addExits_eval (n : Nat) (hn : 2 ≤ n) :
    addExits n 1 = (2 ^ 1, 2 ^ 0)
    ∧ addExits n (n : Int) = (2 ^ 4, 2 ^ 5)
    ∧ addExits n ((n : Int) + 1) = (2 ^ 2, 2 ^ 7)
    ∧ addExits n (-(n : Int)) = (2 ^ 5, 2 ^ 4)
    ∧ addExits n (1 - (n : Int)) = (2 ^ 3, 2 ^ 6) := by
  have hn2 : (2 : Int) ≤ n := by exact_mod_cast hn
  refine ⟨by rw [addExits, if_pos rfl]; rfl, ?_, ?_, ?_, ?_⟩
  · rw [addExits, if_neg (by omega), if_pos (by omega), if_neg (by omega), if_pos (by omega)]
    rfl
  · rw [addExits, if_neg (by omega), if_pos (by omega), if_neg (by omega), if_neg (by omega),
      if_pos (by omega)]
    rfl
  · rw [addExits, if_neg (by omega), if_neg (by omega), if_neg (by omega), if_pos (by omega)]
    rfl
  · rw [addExits, if_neg (by omega), if_neg (by omega), if_neg (by omega), if_neg (by omega),
      if_pos (by omega)]
    rfl

/-- Wall `w`, when removed, sets direction bit `β` on cell `x`. -/
def contributes (nr : Nat) (w : Wall) (x β : Nat) : Prop :=
  (x = w.2 ∧ Nat.testBit (addExits nr ((w.2 : Int) - w.1)).1 β = true)
  ∨ (x = w.1 ∧ Nat.testBit (addExits nr ((w.2 : Int) - w.1)).2 β = true)

/-- The neighbour offset encoded by each direction bit. -/
def offs (nr β : Nat) : Int :=
  match β with
  | 0 => 1
  | 1 => -1
  | 2 => -((nr : Int) + 1)
  | 3 => (nr : Int) - 1
  | 4 => -(nr : Int)
  | 5 => (nr : Int)
  | 6 => -((nr : Int) - 1)
  | 7 => (nr : Int) + 1
  | _ => 0

/-- A direction bit determines the other endpoint of the removed grid wall:
it sits at the fixed offset `offs n β` from the marked cell. -/
theorem contributes_partner {m n : Nat} (hn : 2 ≤ n) {w : Wall}
    (hw : w ∈ init_walls m n) {x β : Nat} (h : contributes n w x β) :
    β < 8 ∧ ((x = w.1 ∧ (w.2 : Int) = (x : Int) + offs n β)
      ∨ (x = w.2 ∧ (w.1 : Int) = (x : Int) + offs n β)) := by
  obtain ⟨hA1, hA2, hA3, hA4, hA5⟩ := addExits_eval n hn
  unfold contributes at h
  rcases init_walls_delta hn hw with hd | hd | hd | hd | hd <;>
    rw [hd] at h <;>
    rcases h with ⟨hx, hb⟩ | ⟨hx, hb⟩
  · rw [hA1] at hb
    rw [(testBit_pow (by omega)).mp hb]
    exact ⟨by omega, Or.inr ⟨hx, by rw [offs]; omega⟩⟩
  · rw [hA1] at hb
    rw [(testBit_pow (by omega)).mp hb]
    exact ⟨by omega, Or.inl ⟨hx, by rw [offs]; omega⟩⟩
  · rw [hA2] at hb
    rw [(testBit_pow (by omega)).mp hb]
    exact ⟨by omega, Or.inr ⟨hx, by rw [offs]; omega⟩⟩
  · rw [hA2] at hb
    rw [(testBit_pow (by omega)).mp hb]
    exact ⟨by omega, Or.inl ⟨hx, by rw [offs]; omega⟩⟩
  · rw [hA3] at hb
    rw [(testBit_pow (by omega)).mp hb]
    exact ⟨by omega, Or.inr ⟨hx, by rw [offs]; omega⟩⟩
  · rw [hA3] at hb
    rw [(testBit_pow (by omega)).mp hb]
    exact ⟨by omega, Or.inl ⟨hx, by rw [offs]; omega⟩⟩
  · rw [hA4] at hb
    rw [(testBit_pow (by omega)).mp hb]
    exact ⟨by omega, Or.inr ⟨hx, by rw [offs]; omega⟩⟩
  · rw [hA4] at hb
    rw [(testBit_pow (by omega)).mp hb]
    exact ⟨by omega, Or.inl ⟨hx, by rw [offs]; omega⟩⟩
  · rw [hA5] at hb
    rw [(testBit_pow (by omega)).mp hb]
    exact ⟨by omega, Or.inr ⟨hx, by rw [offs]; omega⟩⟩
  · rw [hA5] at hb
    rw [(testBit_pow (by omega)).mp hb]
    exact ⟨by omega, Or.inl ⟨hx, by rw [offs]; omega⟩⟩

/-- Two grid walls that mark the same `(cell, bit)` pair join the same
unordered cell pair. -/
theorem contributes_same_pair {m n : Nat} (hn : 2 ≤ n) {w w' : Wall}
    (hw : w ∈ init_walls m n) (hw' : w' ∈ init_walls m n) {x β : Nat}
    (h : contributes n w x β) (h' : contributes n w' x β) :
    (w'.1 = w.1 ∧ w'.2 = w.2) ∨ (w'.1 = w.2 ∧ w'.2 = w.1) := by
  obtain ⟨hβ, hp⟩ := contributes_partner hn hw h
  obtain ⟨_, hp'⟩ := contributes_partner hn hw' h'
  rcases hp with ⟨hx, ho⟩ | ⟨hx, ho⟩ <;> rcases hp' with ⟨hx', ho'⟩ | ⟨hx', ho'⟩
  · exact Or.inl ⟨by omega, by omega⟩
  · exact Or.inr ⟨by omega, by omega⟩
  · exact Or.inr ⟨by omega, by omega⟩
  · exact Or.inl ⟨by omega, by omega⟩

theorem conn_nil {a b : Nat} : conn [] a b ↔ a = b := by
  constructor
  · intro h
    induction h with
    | refl => rfl
    | tail _ hstep _ => rcases hstep with h | h <;> cases h
  · rintro rfl
    exact conn.refl a

theorem conn_cons_iff {E : List Wall} {x y a b : Nat} :
    conn ((x, y) :: E) a b ↔
      conn E a b ∨ (conn E a x ∧ conn E y b) ∨ (conn E a y ∧ conn E x b) := by
  constructor
  · exact conn_cons_decomp
  · have hsub : ∀ w, w ∈ E → w ∈ (x, y) :: E := fun w hw => List.mem_cons_of_mem _ hw
    have hedge : conn ((x, y) :: E) x y := conn.single (Or.inl (List.mem_cons_self _ _))
    rintro (h | ⟨h1, h2⟩ | ⟨h1, h2⟩)
    · exact conn_mono hsub h
    · exact ((conn_mono hsub h1).trans2 hedge).trans2 (conn_mono hsub h2)
    · exact ((conn_mono hsub h1).trans2 hedge.symm2).trans2 (conn_mono hsub h2)

theorem cellAt_replicate {N w : Nat} {v : Int} (hw : w < N) :
    cellAt (List.replicate N v) w = v := by
  simp [cellAt, List.getD, List.getElem?_replicate, hw]

theorem exAt_replicate {N w : Nat} {v : Nat} (hw : w < N) :
    exAt (List.replicate N v) w = v := by
  simp [exAt, List.getD, List.getElem?_replicate, hw]

/-- Path compression via one `base` call preserves everything the carving
loop cares about. -/
theorem base_world {c : Cells} {x : Nat}
    (hlinks : ∀ w, w < c.length → 0 ≤ cellAt c w → nextCell c w < c.length)
    (hterm : ∀ w, w < c.length → ∃ r, Reaches c w r)
    (hx : x < c.length) :
    (base c x).2.length = c.length
    ∧ (∀ w z, Reaches (base c x).2 w z ↔ Reaches c w z)
    ∧ (∀ y, cellAt (base c x).2 y < 0 ↔ cellAt c y < 0)
    ∧ (∀ w, w < c.length → 0 ≤ cellAt (base c x).2 w → nextCell (base c x).2 w < c.length)
    ∧ Reaches c x (base c x).1 ∧ cellAt c (base c x).1 < 0 ∧ (base c x).1 < c.length := by
  obtain ⟨hreach, hroot, hrlt, hlen, hpt⟩ := base_spec ⟨hlinks, hterm⟩ hx
  have hsign : ∀ y, cellAt (base c x).2 y < 0 ↔ cellAt c y < 0 := by
    intro y
    rcases hpt y with he | ⟨he, hge, _⟩
    · rw [he]
    · rw [he]
      constructor
      · intro h
        omega
      · intro h
        omega
  refine ⟨hlen, reaches_repoint hroot hpt, hsign, ?_, hreach, hroot, hrlt⟩
  intro w hw hge
  rcases hpt w with he | ⟨he, hge0, _⟩
  · have hnx : nextCell (base c x).2 w = nextCell c w := by
      unfold nextCell
      rw [he]
    rw [hnx]
    rw [he] at hge
    exact hlinks w hw hge
  · have hnx : nextCell (base c x).2 w = (base c x).1 := by
      unfold nextCell
      rw [he]
      exact Int.toNat_natCast _
    rw [hnx]
    exact hrlt

/-- Effect of `unify` on the `same`-partition: exactly the two components of
the (distinct) roots `x`,`y` merge. -/
theorem unify_same {c : Cells} {x y : Nat}
    (hx : cellAt c x < 0) (hy : cellAt c y < 0) (hxy : x ≠ y)
    (hxl : x < c.length) (hyl : y < c.length) :
    ∀ a b, same (unify c x y) a b ↔
      (same c a b ∨ (same c a x ∧ same c b y) ∨ (same c a y ∧ same c b x)) := by
  obtain ⟨o, r, hor, hlen, hpart, hco, hcr, hoth, hsign, hsize⟩ := unify_full hx hy hxy hxl hyl
  have hro : r ≠ o := by
    rcases hor with ⟨rfl, rfl⟩ | ⟨rfl, rfl⟩
    · exact hxy
    · exact fun he => hxy he.symm
  have hrroot : cellAt c r < 0 := by
    rcases hor with ⟨ho2, hr2⟩ | ⟨ho2, hr2⟩
    · rw [hr2]
      exact hx
    · rw [hr2]
      exact hy
  have horoot : cellAt c o < 0 := by
    rcases hor with ⟨ho2, hr2⟩ | ⟨ho2, hr2⟩
    · rw [ho2]
      exact hy
    · rw [ho2]
      exact hx
  intro a b
  constructor
  · rintro ⟨z, haz, hbz⟩
    rw [hpart] at haz hbz
    rcases haz with ⟨haz, hzo⟩ | ⟨hao, hzr⟩ <;> rcases hbz with ⟨hbz, _⟩ | ⟨hbo, hzr2⟩
    · exact Or.inl ⟨z, haz, hbz⟩
    · -- a reaches z = r, b reaches o
      rw [hzr2] at haz
      have hRr : Reaches c r r := .root hrroot
      have hRo : Reaches c o o := .root horoot
      rcases hor with ⟨ho2, hr2⟩ | ⟨ho2, hr2⟩
      · refine Or.inr (Or.inl ?_)
        rw [← hr2, ← ho2]
        exact ⟨⟨r, haz, hRr⟩, ⟨o, hbo, hRo⟩⟩
      · refine Or.inr (Or.inr ?_)
        rw [← hr2, ← ho2]
        exact ⟨⟨r, haz, hRr⟩, ⟨o, hbo, hRo⟩⟩
    · rw [hzr] at hbz
      have hRr : Reaches c r r := .root hrroot
      have hRo : Reaches c o o := .root horoot
      rcases hor with ⟨ho2, hr2⟩ | ⟨ho2, hr2⟩
      · refine Or.inr (Or.inr ?_)
        rw [← hr2, ← ho2]
        exact ⟨⟨o, hao, hRo⟩, ⟨r, hbz, hRr⟩⟩
      · refine Or.inr (Or.inl ?_)
        rw [← hr2, ← ho2]
        exact ⟨⟨o, hao, hRo⟩, ⟨r, hbz, hRr⟩⟩
    · exact Or.inl ⟨o, hao, hbo⟩
  · intro h
    have hreach : ∀ u ρ, Reaches c u ρ → Reaches (unify c x y) u (if ρ = o then r else ρ) := by
      intro u ρ hu
      split_ifs with hρ
      · rw [hpart]
        exact Or.inr ⟨hρ ▸ hu, rfl⟩
      · rw [hpart]
        exact Or.inl ⟨hu, hρ⟩
    rcases h with ⟨z, haz, hbz⟩ | ⟨⟨z1, haz, hxz⟩, ⟨z2, hbz, hyz⟩⟩ | ⟨⟨z1, haz, hyz⟩, ⟨z2, hbz, hxz⟩⟩
    · exact ⟨_, hreach a z haz, hreach b z hbz⟩
    · -- a's root is x's root = x, b's root is y's root = y
      have hz1 : z1 = x := Reaches.of_root hx hxz
      have hz2 : z2 = y := Reaches.of_root hy hyz
      rw [hz1] at haz
      rw [hz2] at hbz
      have ha2 := hreach a x haz
      have hb2 := hreach b y hbz
      rcases hor with ⟨ho2, hr2⟩ | ⟨ho2, hr2⟩
      · -- o = y, r = x : both now reach x = r
        rw [if_neg (by omega : ¬ x = o)] at ha2
        rw [if_pos ho2.symm] at hb2
        exact ⟨r, hr2 ▸ ha2, hb2⟩
      · -- o = x, r = y
        rw [if_pos ho2.symm] at ha2
        rw [if_neg (by omega : ¬ y = o)] at hb2
        exact ⟨r, ha2, hr2 ▸ hb2⟩
    · have hz1 : z1 = y := Reaches.of_root hy hyz
      have hz2 : z2 = x := Reaches.of_root hx hxz
      rw [hz1] at haz
      rw [hz2] at hbz
      have ha2 := hreach a y haz
      have hb2 := hreach b x hbz
      rcases hor with ⟨ho2, hr2⟩ | ⟨ho2, hr2⟩
      · rw [if_pos ho2.symm] at ha2
        rw [if_neg (by omega : ¬ x = o)] at hb2
        exact ⟨r, ha2, hr2 ▸ hb2⟩
      · rw [if_pos ho2.symm] at hb2
        rw [if_neg (by omega : ¬ y = o)] at ha2
        exact ⟨r, hr2 ▸ ha2, hb2⟩

theorem nroots_replicate (N : Nat) : nroots (List.replicate N (-1 : Int)) = N := by
  unfold nroots
  rw [List.length_replicate, Finset.filter_true_of_mem, Finset.card_range]
  intro x hx
  rw [cellAt_replicate (Finset.mem_range.mp hx)]
  norm_num

theorem nroots_congr {c d : Cells} (hlen : d.length = c.length)
    (hsign : ∀ w, cellAt d w < 0 ↔ cellAt c w < 0) : nroots d = nroots c := by
  unfold nroots
  rw [hlen]
  congr 1
  apply Finset.filter_congr
  intro x _
  simp only [hsign x]

theorem nroots_drop {c d : Cells} {o : Nat} (hlen : d.length = c.length)
    (ho : o < c.length) (hor : cellAt c o < 0)
    (hsign : ∀ w, cellAt d w < 0 ↔ (cellAt c w < 0 ∧ w ≠ o)) :
    nroots d + 1 = nroots c := by
  unfold nroots
  rw [hlen]
  have he : (Finset.range c.length).filter (fun x => cellAt d x < 0)
      = ((Finset.range c.length).filter (fun x => cellAt c x < 0)).erase o := by
    ext x
    simp only [Finset.mem_erase, Finset.mem_filter, Finset.mem_range, hsign x]
    tauto
  have hmem : o ∈ (Finset.range c.length).filter (fun x => cellAt c x < 0) :=
    Finset.mem_filter.mpr ⟨Finset.mem_range.mpr ho, hor⟩
  rw [he, Finset.card_erase_of_mem hmem]
  have hpos : 1 ≤ ((Finset.range c.length).filter (fun x => cellAt c x < 0)).card :=
    Finset.card_pos.mpr ⟨o, hmem⟩
  omega

theorem nroots_pos {c : Cells} (hne : 0 < c.length)
    (hlinks : ∀ w, w < c.length → 0 ≤ cellAt c w → nextCell c w < c.length)
    (hterm : ∀ w, w < c.length → ∃ r, Reaches c w r) :
    1 ≤ nroots c := by
  obtain ⟨r, hr⟩ := hterm 0 hne
  have hroot : cellAt c r < 0 := hr.root_lt
  have hlt : r < c.length := reaches_root_lt hr hne hlinks
  refine Finset.card_pos.mpr ⟨r, ?_⟩
  exact Finset.mem_filter.mpr ⟨Finset.mem_range.mpr hlt, hroot⟩

theorem exAt_orExit_self {ex : List Nat} {i m : Nat} (h : i < ex.length) :
    exAt (orExit ex i m) i = exAt ex i ||| m := by
  unfold orExit
  exact exAt_set_self h

theorem exAt_orExit_ne {ex : List Nat} {i j m : Nat} (h : i ≠ j) :
    exAt (orExit ex i m) j = exAt ex j := by
  unfold orExit
  exact exAt_set_ne h

theorem orExit_length {ex : List Nat} {i m : Nat} : (orExit ex i m).length = ex.length := by
  unfold orExit
  exact List.length_set ex i _

/-- The two consecutive `base` calls of one carving iteration, packaged. -/
theorem double_base {c : Cells} {u v : Nat}
    (hlinks : ∀ w, w < c.length → 0 ≤ cellAt c w → nextCell c w < c.length)
    (hterm : ∀ w, w < c.length → ∃ r, Reaches c w r)
    (hu : u < c.length) (hv : v < c.length) :
    (base (base c u).2 v).2.length = c.length
    ∧ (∀ w z, Reaches (base (base c u).2 v).2 w z ↔ Reaches c w z)
    ∧ (∀ y, cellAt (base (base c u).2 v).2 y < 0 ↔ cellAt c y < 0)
    ∧ (∀ w, w < c.length → 0 ≤ cellAt (base (base c u).2 v).2 w →
        nextCell (base (base c u).2 v).2 w < c.length)
    ∧ Reaches c u (base c u).1 ∧ cellAt c (base c u).1 < 0 ∧ (base c u).1 < c.length
    ∧ Reaches c v (base (base c u).2 v).1 ∧ cellAt c (base (base c u).2 v).1 < 0
    ∧ (base (base c u).2 v).1 < c.length := by
  obtain ⟨hlen1, hR1, hS1, hL1, hru, hrootu, hltu⟩ := base_world hlinks hterm hu
  have hterm1 : ∀ w, w < (base c u).2.length → ∃ r, Reaches (base c u).2 w r := by
    intro w hw
    rw [hlen1] at hw
    obtain ⟨r, hr⟩ := hterm w hw
    exact ⟨r, (hR1 w r).mpr hr⟩
  have hlinks1 : ∀ w, w < (base c u).2.length → 0 ≤ cellAt (base c u).2 w →
      nextCell (base c u).2 w < (base c u).2.length := by
    intro w hw hge
    rw [hlen1] at hw ⊢
    exact hL1 w hw hge
  have hv1 : v < (base c u).2.length := by
    rw [hlen1]
    exact hv
  obtain ⟨hlen2, hR2, hS2, hL2, hrv, hrootv, hltv⟩ := base_world hlinks1 hterm1 hv1
  refine ⟨by rw [hlen2, hlen1], ?_, ?_, ?_, hru, hrootu, hltu, ?_, ?_, ?_⟩
  · intro w z
    exact (hR2 w z).trans (hR1 w z)
  · intro y
    exact (hS2 y).trans (hS1 y)
  · intro w hw hge
    have hw1 : w < (base c u).2.length := by
      rw [hlen1]
      exact hw
    have := hL2 w hw1 hge
    rwa [hlen1] at this
  · exact (hR1 v _).mp hrv
  · exact (hS1 _).mp hrootv
  · rwa [hlen1] at hltv

/-- Invariant of the carving loop after the walls `done` have been processed:
well-formed union-find, the component partition matches connectivity through
the removed walls, root count balances removals, the removed walls form a
forest, processed walls split into removed and kept, every processed wall has
its endpoints in one component, and the exit bitmaps carry exactly the bits
the removed walls set. -/
structure KInv (m n : Nat) (done : List Wall) (s : MazeState) : Prop where
  lenC : s.cells.length = m * n
  lenE : s.exits.length = m * n
  links : ∀ w, w < s.cells.length → 0 ≤ cellAt s.cells w → nextCell s.cells w < s.cells.length
  term : ∀ w, w < s.cells.length → ∃ r, Reaches s.cells w r
  partD : ∀ a b, a < m * n → b < m * n → (same s.cells a b ↔ conn s.removedRev a b)
  rootsE : nroots s.cells + s.removedRev.length = m * n
  forest : Forest s.removedRev
  permP : done.Perm (s.removedRev ++ s.kept)
  procSame : ∀ w ∈ done, same s.cells w.1 w.2
  bits : ∀ z β, Nat.testBit (exAt s.exits z) β = true ↔ ∃ w ∈ s.removedRev, contributes n w z β


theorem kinv_init (m n : Nat) :
    KInv m n [] ⟨List.replicate (m * n) (-1), List.replicate (m * n) 0, [], []⟩ := by
  refine ⟨List.length_replicate _ _, List.length_replicate _ _, ?_, ?_, ?_, ?_, .nil, ?_, ?_, ?_⟩
  · intro w hw hge
    rw [List.length_replicate] at hw
    rw [cellAt_replicate hw] at hge
    omega
  · intro w hw
    rw [List.length_replicate] at hw
    exact ⟨w, .root (by rw [cellAt_replicate hw]; norm_num)⟩
  · intro a b ha hb
    rw [conn_nil]
    have ha' : cellAt (List.replicate (m * n) (-1 : Int)) a < 0 := by
      rw [cellAt_replicate ha]
      norm_num
    have hb' : cellAt (List.replicate (m * n) (-1 : Int)) b < 0 := by
      rw [cellAt_replicate hb]
      norm_num
    constructor
    · rintro ⟨r, har, hbr⟩
      have h1 := Reaches.of_root ha' har
      have h2 := Reaches.of_root hb' hbr
      omega
    · rintro rfl
      exact ⟨a, .root ha', .root ha'⟩
  · simp [nroots_replicate]
  · simp
  · intro w hw
    cases hw
  · intro z β
    simp only [List.mem_nil_iff, false_and, exists_false, iff_false]
    rcases Nat.lt_or_ge z (m * n) with hz | hz
    · rw [exAt_replicate hz]
      simp [Nat.testBit]
    · rw [exAt, List.getD_eq_default]
      · simp [Nat.testBit]
      · rw [List.length_replicate]
        exact hz

theorem createStep_eq (nr : Nat) (s : MazeState) (wa wb : Nat) :
    createStep nr s (wa, wb) =
      if (base s.cells wa).1 ≠ (base (base s.cells wa).2 wb).1 then
        { cells := unify (base (base s.cells wa).2 wb).2 (base s.cells wa).1
            (base (base s.cells wa).2 wb).1,
          exits := orExit (orExit s.exits wb (addExits nr ((wb : Int) - (wa : Int))).1)
            wa (addExits nr ((wb : Int) - (wa : Int))).2,
          kept := s.kept,
          removedRev := (wa, wb) :: s.removedRev }
      else
        { cells := (base (base s.cells wa).2 wb).2, exits := s.exits,
          kept := s.kept ++ [(wa, wb)], removedRev := s.removedRev } := rfl

/-- One carving iteration preserves the loop invariant. -/
theorem kinv_step {m n : Nat} {done : List Wall} {s : MazeState} {w : Wall}
    (hn : 2 ≤ n) (hw : w ∈ init_walls m n) (hI : KInv m n done s) :
    KInv m n (done ++ [w]) (createStep n s w) := by
  obtain ⟨wa, wb⟩ := w
  obtain ⟨hw1, hw2, hw12⟩ := init_walls_bounds hn hw
  have hw1' : wa < m * n := hw1
  have hw2' : wb < m * n := hw2
  have hw12' : wa ≠ wb := hw12
  obtain ⟨lenC, lenE, links, term, partD, rootsE, forest, permP, procSame, bits⟩ := hI
  have hu : wa < s.cells.length := by
    rw [lenC]
    exact hw1'
  have hv : wb < s.cells.length := by
    rw [lenC]
    exact hw2'
  obtain ⟨dlen, dR, dS, dL, hru, hrootu, hltu, hrv, hrootv, hltv⟩ := double_base links term hu hv
  rw [createStep_eq]
  set r1 := (base s.cells wa).1 with hr1def
  set r2 := (base (base s.cells wa).2 wb).1 with hr2def
  set c2 := (base (base s.cells wa).2 wb).2 with hc2def
  have hsame : ∀ u v, same c2 u v ↔ same s.cells u v := fun u v =>
    exists_congr (fun ρ => and_congr (dR u ρ) (dR v ρ))
  have hterm2 : ∀ x, x < s.cells.length → ∃ ρ, Reaches c2 x ρ := by
    intro x hx
    obtain ⟨ρ, hρ⟩ := term x hx
    exact ⟨ρ, (dR x ρ).mpr hρ⟩
  split_ifs with hne
  · -- remove branch: distinct roots
    have hx : cellAt c2 r1 < 0 := (dS r1).mpr hrootu
    have hy : cellAt c2 r2 < 0 := (dS r2).mpr hrootv
    have hxl : r1 < c2.length := by
      rw [dlen]
      exact hltu
    have hyl : r2 < c2.length := by
      rw [dlen]
      exact hltv
    obtain ⟨o, r, hor, ulen, upart, uco, ucr, uoth, usign, usize⟩ := unify_full hx hy hne hxl hyl
    have usame := unify_same hx hy hne hxl hyl
    have hru2 : Reaches c2 wa r1 := (dR wa r1).mpr hru
    have hrv2 : Reaches c2 wb r2 := (dR wb r2).mpr hrv
    have holt : o < c2.length := by
      rcases hor with ⟨rfl, _⟩ | ⟨rfl, _⟩
      · exact hyl
      · exact hxl
    have hrlt : r < c2.length := by
      rcases hor with ⟨_, rfl⟩ | ⟨_, rfl⟩
      · exact hxl
      · exact hyl
    have horoot : cellAt c2 o < 0 := by
      rcases hor with ⟨rfl, _⟩ | ⟨rfl, _⟩
      · exact hy
      · exact hx
    have kar1 : ∀ a, a < m * n → (same c2 a r1 ↔ conn s.removedRev a wa) := by
      intro a ha
      have e1 : same c2 a r1 ↔ same c2 a wa := by
        constructor
        · rintro ⟨ρ, h1, h2⟩
          have hρ : ρ = r1 := Reaches.of_root hx h2
          exact ⟨r1, hρ ▸ h1, hru2⟩
        · rintro ⟨ρ, h1, h2⟩
          have hρ : ρ = r1 := h2.det hru2
          exact ⟨r1, hρ ▸ h1, .root hx⟩
      exact e1.trans ((hsame a wa).trans (partD a wa ha hw1'))
    have kar2 : ∀ a, a < m * n → (same c2 a r2 ↔ conn s.removedRev a wb) := by
      intro a ha
      have e1 : same c2 a r2 ↔ same c2 a wb := by
        constructor
        · rintro ⟨ρ, h1, h2⟩
          have hρ : ρ = r2 := Reaches.of_root hy h2
          exact ⟨r2, hρ ▸ h1, hrv2⟩
        · rintro ⟨ρ, h1, h2⟩
          have hρ : ρ = r2 := h2.det hrv2
          exact ⟨r2, hρ ▸ h1, .root hy⟩
      exact e1.trans ((hsame a wb).trans (partD a wb ha hw2'))
    have mono : ∀ u v, same c2 u v → same (unify c2 r1 r2) u v := by
      intro u v h
      exact (usame u v).mpr (Or.inl h)
    refine ⟨?_, ?_, ?_, ?_, ?_, ?_, ?_, ?_, ?_, ?_⟩
    · rw [ulen, dlen, lenC]
    · rw [orExit_length, orExit_length, lenE]
    · -- links
      intro x hx' hge
      rw [ulen, dlen] at hx'
      rw [ulen, dlen]
      by_cases hox : x = o
      · subst hox
        have hnx : nextCell (unify c2 r1 r2) x = r := by
          unfold nextCell
          rw [uco]
          exact Int.toNat_natCast r
        rw [hnx, ← dlen]
        exact hrlt
      · by_cases hrx : x = r
        · subst hrx
          rw [ucr] at hge
          omega
        · have hcx : cellAt (unify c2 r1 r2) x = cellAt c2 x := uoth x hox hrx
          have hnx : nextCell (unify c2 r1 r2) x = nextCell c2 x := by
            unfold nextCell
            rw [hcx]
          rw [hnx]
          rw [hcx] at hge
          exact dL x hx' hge
    · -- term
      intro x hx'
      rw [ulen, dlen] at hx'
      obtain ⟨ρ, hρ⟩ := hterm2 x hx'
      by_cases hρo : ρ = o
      · refine ⟨r, ?_⟩
        rw [upart]
        exact Or.inr ⟨hρo ▸ hρ, rfl⟩
      · refine ⟨ρ, ?_⟩
        rw [upart]
        exact Or.inl ⟨hρ, hρo⟩
    · -- partition
      intro a b ha hb
      rw [usame a b, conn_cons_iff]
      have h0 := (hsame a b).trans (partD a b ha hb)
      have h1 := kar1 a ha
      have h2 := kar2 b hb
      have h3 := kar2 a ha
      have h4 := kar1 b hb
      constructor
      · rintro (h | ⟨p, q⟩ | ⟨p, q⟩)
        · exact Or.inl (h0.mp h)
        · exact Or.inr (Or.inl ⟨h1.mp p, (h2.mp q).symm2⟩)
        · exact Or.inr (Or.inr ⟨h3.mp p, (h4.mp q).symm2⟩)
      · rintro (h | ⟨p, q⟩ | ⟨p, q⟩)
        · exact Or.inl (h0.mpr h)
        · exact Or.inr (Or.inl ⟨h1.mpr p, h2.mpr q.symm2⟩)
        · exact Or.inr (Or.inr ⟨h3.mpr p, h4.mpr q.symm2⟩)
    · -- root count
      have hdrop : nroots (unify c2 r1 r2) + 1 = nroots c2 :=
        nroots_drop ulen holt horoot usign
      have hcong : nroots c2 = nroots s.cells := nroots_congr dlen dS
      simp only [List.length_cons]
      omega
    · -- forest
      refine forest.grow ?_
      intro hc
      have hsc2 : same c2 wa wb := (hsame wa wb).mpr ((partD wa wb hw1' hw2').mpr hc)
      exact hne ((same_roots_eq hru2 hrv2).mp hsc2)
    · -- permutation
      have h1 := permP.append (List.Perm.refl [(wa, wb)])
      have h2 : ((s.removedRev ++ s.kept) ++ [(wa, wb)]).Perm
          ([(wa, wb)] ++ (s.removedRev ++ s.kept)) := List.perm_append_comm
      exact h1.trans h2
    · -- processed walls joined
      intro w' hw'
      rcases List.mem_append.mp hw' with hmem | hmem
      · exact mono _ _ ((hsame _ _).mpr (procSame w' hmem))
      · have hweq : w' = (wa, wb) := by
          cases List.mem_singleton.mp hmem
          rfl
        subst hweq
        refine (usame wa wb).mpr (Or.inr (Or.inl ⟨⟨r1, hru2, .root hx⟩, ⟨r2, hrv2, .root hy⟩⟩))
    · -- bits
      intro z β
      by_cases hzb : z = wb
      · subst hzb
        rw [exAt_orExit_ne hw12', exAt_orExit_self (by rw [lenE]; exact hw2'),
          Nat.testBit_or]
        simp only [Bool.or_eq_true]
        constructor
        · rintro (h | h)
          · obtain ⟨w', hmem, hcon⟩ := (bits z β).mp h
            exact ⟨w', List.mem_cons_of_mem _ hmem, hcon⟩
          · exact ⟨(wa, z), List.mem_cons_self _ _, Or.inl ⟨rfl, h⟩⟩
        · rintro ⟨w', hmem, hcon⟩
          rcases List.mem_cons.mp hmem with rfl | hmem
          · unfold contributes at hcon
            rcases hcon with ⟨hz, hb⟩ | ⟨hz, hb⟩
            · exact Or.inr hb
            · exact absurd hz.symm hw12'
          · exact Or.inl ((bits z β).mpr ⟨w', hmem, hcon⟩)
      · by_cases hza : z = wa
        · subst hza
          rw [exAt_orExit_self (by rw [orExit_length, lenE]; exact hw1'),
            exAt_orExit_ne (by omega : wb ≠ z), Nat.testBit_or]
          simp only [Bool.or_eq_true]
          constructor
          · rintro (h | h)
            · obtain ⟨w', hmem, hcon⟩ := (bits z β).mp h
              exact ⟨w', List.mem_cons_of_mem _ hmem, hcon⟩
            · exact ⟨(z, wb), List.mem_cons_self _ _, Or.inr ⟨rfl, h⟩⟩
          · rintro ⟨w', hmem, hcon⟩
            rcases List.mem_cons.mp hmem with rfl | hmem
            · unfold contributes at hcon
              rcases hcon with ⟨hz, hb⟩ | ⟨hz, hb⟩
              · exact absurd hz hzb
              · exact Or.inr hb
            · exact Or.inl ((bits z β).mpr ⟨w', hmem, hcon⟩)
        · rw [exAt_orExit_ne (by omega : wa ≠ z), exAt_orExit_ne (by omega : wb ≠ z)]
          rw [bits z β]
          constructor
          · rintro ⟨w', hmem, hcon⟩
            exact ⟨w', List.mem_cons_of_mem _ hmem, hcon⟩
          · rintro ⟨w', hmem, hcon⟩
            rcases List.mem_cons.mp hmem with rfl | hmem
            · unfold contributes at hcon
              rcases hcon with ⟨hz, hb⟩ | ⟨hz, hb⟩
              · exact absurd hz hzb
              · exact absurd hz hza
            · exact ⟨w', hmem, hcon⟩
  · -- keep branch: same root
    refine ⟨?_, lenE, ?_, ?_, ?_, ?_, forest, ?_, ?_, bits⟩
    · rw [dlen, lenC]
    · intro x hx' hge
      rw [dlen] at hx'
      rw [dlen]
      exact dL x hx' hge
    · intro x hx'
      rw [dlen] at hx'
      exact hterm2 x hx'
    · intro a b ha hb
      exact (hsame a b).trans (partD a b ha hb)
    · have hcong : nroots c2 = nroots s.cells := nroots_congr dlen dS
      show nroots c2 + s.removedRev.length = m * n
      omega
    · have h1 := permP.append (List.Perm.refl [(wa, wb)])
      rwa [List.append_assoc] at h1
    · intro w' hw'
      rcases List.mem_append.mp hw' with hmem | hmem
      · exact (hsame _ _).mpr (procSame w' hmem)
      · have hweq : w' = (wa, wb) := by
          cases List.mem_singleton.mp hmem
          rfl
        subst hweq
        push_neg at hne
        refine ⟨r1, (dR wa r1).mpr hru, ?_⟩
        rw [hne]
        exact (dR wb r2).mpr hrv

theorem kinv_fold {m n : Nat} (hn : 2 ≤ n) :
    ∀ (ws done : List Wall) (s : MazeState),
      (∀ w ∈ ws, w ∈ init_walls m n) → KInv m n done s →
      KInv m n (done ++ ws) (ws.foldl (createStep n) s)
  | [], done, s, _, hI => by simpa using hI
  | w :: ws, done, s, hws, hI => by
      have h1 := kinv_step hn (hws w (List.mem_cons_self _ _)) hI
      have h2 := kinv_fold hn ws (done ++ [w]) (createStep n s w)
        (fun w' hw' => hws w' (List.mem_cons_of_mem _ hw')) h1
      rwa [List.append_assoc] at h2

theorem kinv_final {m n : Nat} (hn : 2 ≤ n) {ws : List Wall}
    (hws : ∀ w ∈ ws, w ∈ init_walls m n) :
    KInv m n ws (create_maze n (m * n) ws) := by
  have h := kinv_fold hn ws [] ⟨List.replicate (m * n) (-1), List.replicate (m * n) 0, [], []⟩
    hws (kinv_init m n)
  rwa [List.nil_append] at h

theorem same_symm {c : Cells} {a b : Nat} (h : same c a b) : same c b a := by
  obtain ⟨ρ, h1, h2⟩ := h
  exact ⟨ρ, h2, h1⟩

theorem same_trans {c : Cells} {a b d : Nat} (h1 : same c a b) (h2 : same c b d) :
    same c a d := by
  obtain ⟨ρ1, ha, hb⟩ := h1
  obtain ⟨ρ2, hb2, hd⟩ := h2
  exact ⟨ρ2, (hb.det hb2) ▸ ha, hd⟩

/-- Once all walls are processed, a connected wall list forces a single
component. -/
theorem final_all_same {m n : Nat} {ws : List Wall} {s : MazeState}
    (hI : KInv m n ws s)
    (hconn : ∀ a b, a < m * n → b < m * n → conn ws a b) :
    ∀ a b, a < m * n → b < m * n → same s.cells a b := by
  intro a b ha hb
  have h := hconn a b ha hb
  clear hb
  induction h with
  | refl =>
    obtain ⟨ρ, hρ⟩ := hI.term a (by rw [hI.lenC]; exact ha)
    exact ⟨ρ, hρ, hρ⟩
  | tail hab hstep ih =>
    rcases hstep with hmem | hmem
    · exact same_trans ih (hI.procSame _ hmem)
    · exact same_trans ih (same_symm (hI.procSame _ hmem))

theorem all_same_nroots_one {c : Cells} {N : Nat} (hlen : c.length = N) (hN : 0 < N)
    (hlinks : ∀ w, w < c.length → 0 ≤ cellAt c w → nextCell c w < c.length)
    (hterm : ∀ w, w < c.length → ∃ r, Reaches c w r)
    (hall : ∀ a b, a < N → b < N → same c a b) : nroots c = 1 := by
  obtain ⟨ρ0, h0⟩ := hterm 0 (by rw [hlen]; exact hN)
  have hρ0root : cellAt c ρ0 < 0 := h0.root_lt
  have hρ0lt : ρ0 < c.length := reaches_root_lt h0 (by rw [hlen]; exact hN) hlinks
  unfold nroots
  have hfe : (Finset.range c.length).filter (fun x => cellAt c x < 0) = {ρ0} := by
    ext x
    simp only [Finset.mem_filter, Finset.mem_range, Finset.mem_singleton]
    constructor
    · rintro ⟨hxlt, hxroot⟩
      obtain ⟨ρ, hx2, h02⟩ := hall x 0 (by omega) hN
      have he1 := Reaches.of_root hxroot hx2
      have he2 := h02.det h0
      omega
    · rintro rfl
      exact ⟨hρ0lt, hρ0root⟩
  rw [hfe, Finset.card_singleton]

theorem conn_col {m n : Nat} (hn : 2 ≤ n) {i : Nat} (hi : i < m) :
    ∀ j, j < n → conn (init_walls m n) (i * n) (i * n + j)
  | 0, _ => by simpa using conn.refl (i * n)
  | j + 1, hj => by
      have hstep : conn (init_walls m n) (i * n + j) (i * n + (j + 1)) := by
        refine conn.single (Or.inl ?_)
        rw [mem_init_walls_norm hn]
        exact ⟨i, j, hi, by omega, rfl, Or.inr (Or.inl ⟨hj, by omega⟩)⟩
      exact (conn_col hn hi j (by omega)).trans2 hstep

theorem conn_cross {m n : Nat} (hn : 2 ≤ n) {i : Nat} (hi1 : i + 1 < m) :
    conn (init_walls m n) (i * n) ((i + 1) * n) := by
  have hedge : conn (init_walls m n) (i * n) (i * n + n + i % 2) := by
    refine conn.single (Or.inl ?_)
    rw [mem_init_walls_norm hn]
    exact ⟨i, 0, by omega, by omega, by omega, Or.inr (Or.inr ⟨hi1, Or.inl (by omega), by omega⟩)⟩
  have hm1 : (i + 1) * n = i * n + n := by rw [Nat.succ_mul]
  rcases Nat.mod_two_eq_zero_or_one i with hp | hp
  · rw [hp] at hedge
    rw [hm1]
    simpa using hedge
  · rw [hp] at hedge
    have hcol := conn_col hn hi1 1 (by omega)
    rw [hm1] at hcol
    rw [hm1]
    exact hedge.trans2 hcol.symm2

/-- The hexagonal grid's candidate walls connect every pair of cells. -/
theorem grid_conn {m n : Nat} (hn : 2 ≤ n) :
    ∀ a b, a < m * n → b < m * n → conn (init_walls m n) a b := by
  have hbase : ∀ i, i < m → conn (init_walls m n) 0 (i * n) := by
    intro i
    induction i with
    | zero => intro _; simpa using conn.refl 0
    | succ k ih =>
      intro hk
      exact (ih (by omega)).trans2 (conn_cross hn hk)
  have hdecomp : ∀ a, a < m * n → conn (init_walls m n) 0 a := by
    intro a ha
    have hn0 : 0 < n := by omega
    have hja : a % n < n := Nat.mod_lt _ hn0
    have hia : a / n < m := by
      rcases Nat.lt_or_ge (a / n) m with h | h
      · exact h
      · exfalso
        have h1 : m * n ≤ (a / n) * n := Nat.mul_le_mul_right n h
        have h2 : (a / n) * n ≤ a := Nat.div_mul_le_self a n
        omega
    have heq : a / n * n + a % n = a := by
      rw [mul_comm]
      exact Nat.div_add_mod a n
    have h1 := hbase (a / n) hia
    have h2 := conn_col hn hia (a % n) hja
    rw [heq] at h2
    exact h1.trans2 h2
  intro a b ha hb
  exact (hdecomp a ha).symm2.trans2 (hdecomp b hb)

/-- C1: for valid dimensions (2 ≤ columns, rows ≤ 1000) and any shuffled
order of the candidate walls whose adjacency connects the whole grid,
`create_maze` leaves exactly one disjoint-set component, removes exactly
`columns*rows - 1` walls, the exit bits are exactly the direction bits the
removed walls set (each removed wall contributing one single-bit mask to
each of its two endpoint cells, and distinct removed walls never sharing a
`(cell, bit)` mark), and the removed-wall relation is connected and acyclic
(every edge is a bridge): a spanning tree with `N − 1` edges. -/
theorem create_maze_spanning_tree {m n : Nat} (hm : 2 ≤ m) (hm2 : m ≤ 1000)
    (hn : 2 ≤ n) (hn2 : n ≤ 1000) {ws : List Wall}
    (hperm : ws.Perm (init_walls m n))
    (hconn : ∀ a b, a < m * n → b < m * n → conn ws a b) :
    nroots (create_maze n (m * n) ws).cells = 1
    ∧ (create_maze n (m * n) ws).removedRev.length = m * n - 1
    ∧ (∀ z β, Nat.testBit (exAt (create_maze n (m * n) ws).exits z) β = true ↔
        ∃ w ∈ (create_maze n (m * n) ws).removedRev, contributes n w z β)
    ∧ (∀ w ∈ (create_maze n (m * n) ws).removedRev, ∃ βh βl, βh < 8 ∧ βl < 8
        ∧ addExits n ((w.2 : Int) - w.1) = (2 ^ βh, 2 ^ βl)
        ∧ Nat.testBit (exAt (create_maze n (m * n) ws).exits w.2) βh = true
        ∧ Nat.testBit (exAt (create_maze n (m * n) ws).exits w.1) βl = true)
    ∧ (∀ w w', w ∈ (create_maze n (m * n) ws).removedRev →
        w' ∈ (create_maze n (m * n) ws).removedRev →
        ∀ z β, contributes n w z β → contributes n w' z β → w = w')
    ∧ (∀ a b, a < m * n → b < m * n → conn (create_maze n (m * n) ws).removedRev a b)
    ∧ (∀ F G a b, (create_maze n (m * n) ws).removedRev = F ++ (a, b) :: G →
        ¬ conn (F ++ G) a b) := by
  have hws : ∀ w ∈ ws, w ∈ init_walls m n := fun w hw => hperm.mem_iff.mp hw
  have hI := kinv_final hn hws
  have hrem_sub : ∀ w ∈ (create_maze n (m * n) ws).removedRev, w ∈ init_walls m n := by
    intro w hw
    exact hws w (hI.permP.mem_iff.mpr (List.mem_append.mpr (Or.inl hw)))
  have hall := final_all_same hI hconn
  have hN : 0 < m * n := by
    have := Nat.mul_le_mul hm hn
    omega
  have h1 : nroots (create_maze n (m * n) ws).cells = 1 :=
    all_same_nroots_one hI.lenC hN hI.links hI.term hall
  have h2 : (create_maze n (m * n) ws).removedRev.length = m * n - 1 := by
    have := hI.rootsE
    omega
  refine ⟨h1, h2, hI.bits, ?_, ?_, ?_, ?_⟩
  · -- per removed wall: one single-bit mask each side, both set in the bitmaps
    intro w hwrem
    have hwin := hrem_sub w hwrem
    obtain ⟨hA1, hA2, hA3, hA4, hA5⟩ := addExits_eval n hn
    have hset1 : ∀ βh, (addExits n ((w.2 : Int) - w.1)).1 = 2 ^ βh →
        Nat.testBit (exAt (create_maze n (m * n) ws).exits w.2) βh = true := by
      intro βh hmask
      refine (hI.bits w.2 βh).mpr ⟨w, hwrem, Or.inl ⟨rfl, ?_⟩⟩
      rw [hmask]
      exact Nat.testBit_two_pow_self
    have hset2 : ∀ βl, (addExits n ((w.2 : Int) - w.1)).2 = 2 ^ βl →
        Nat.testBit (exAt (create_maze n (m * n) ws).exits w.1) βl = true := by
      intro βl hmask
      refine (hI.bits w.1 βl).mpr ⟨w, hwrem, Or.inr ⟨rfl, ?_⟩⟩
      rw [hmask]
      exact Nat.testBit_two_pow_self
    rcases init_walls_delta hn hwin with hd | hd | hd | hd | hd <;> rw [hd]
    · exact ⟨1, 0, by omega, by omega, hA1, hset1 1 (by rw [hd, hA1]), hset2 0 (by rw [hd, hA1])⟩
    · exact ⟨4, 5, by omega, by omega, hA2, hset1 4 (by rw [hd, hA2]), hset2 5 (by rw [hd, hA2])⟩
    · exact ⟨2, 7, by omega, by omega, hA3, hset1 2 (by rw [hd, hA3]), hset2 7 (by rw [hd, hA3])⟩
    · exact ⟨5, 4, by omega, by omega, hA4, hset1 5 (by rw [hd, hA4]), hset2 4 (by rw [hd, hA4])⟩
    · exact ⟨3, 6, by omega, by omega, hA5, hset1 3 (by rw [hd, hA5]), hset2 6 (by rw [hd, hA5])⟩
  · -- distinct removed walls never share a (cell, bit) mark
    intro w w' hw hw' z β h h'
    have hp := contributes_same_pair hn (hrem_sub w hw) (hrem_sub w' hw') h h'
    refine (init_walls_pair_unique hn (hrem_sub w' hw') (hrem_sub w hw) ?_).symm
    rcases hp with ⟨p1, p2⟩ | ⟨p1, p2⟩
    · exact Or.inl ⟨p1, p2⟩
    · exact Or.inr ⟨p1, p2⟩
  · intro a b ha hb
    exact (hI.partD a b ha hb).mp (hall a b ha hb)
  · intro F G a b hEq
    exact hI.forest.bridge hEq

/-- C9: for valid dimensions the candidate-wall count `3mn−2m−2n+1` strictly
exceeds the `mn−1` walls the carving can remove, so after processing any
shuffled order of the candidate walls at least one wall is kept — the kept
list the C code terminates through its last-wall pointer `q` is non-empty,
so that pointer is non-null when `q->next = 0` runs. -/
theorem create_maze_keeps_a_wall {m n : Nat} (hm : 2 ≤ m) (hm2 : m ≤ 1000)
    (hn : 2 ≤ n) (hn2 : n ≤ 1000) {ws : List Wall}
    (hperm : ws.Perm (init_walls m n)) :
    m * n - 1 < 3 * m * n - 2 * m - 2 * n + 1
    ∧ (create_maze n (m * n) ws).removedRev.length ≤ m * n - 1
    ∧ (create_maze n (m * n) ws).kept ≠ [] := by
  have hws : ∀ w ∈ ws, w ∈ init_walls m n := fun w hw => hperm.mem_iff.mp hw
  have hI := kinv_final hn hws
  have hgap : m * n - 1 < 3 * m * n - 2 * m - 2 * n + 1 := by
    obtain ⟨a, rfl⟩ : ∃ a, m = a + 2 := ⟨m - 2, by omega⟩
    obtain ⟨b, rfl⟩ : ∃ b, n = b + 2 := ⟨n - 2, by omega⟩
    have hmn : (a + 2) * (b + 2) = a * b + 2 * a + 2 * b + 4 := by ring
    have hmn3 : 3 * (a + 2) * (b + 2) = 3 * (a * b) + 6 * a + 6 * b + 12 := by ring
    rw [hmn, hmn3]
    omega
  have hN : 0 < m * n := by
    have := Nat.mul_le_mul hm hn
    omega
  have hpos : 1 ≤ nroots (create_maze n (m * n) ws).cells :=
    nroots_pos (by rw [hI.lenC]; exact hN) hI.links hI.term
  have hle : (create_maze n (m * n) ws).removedRev.length ≤ m * n - 1 := by
    have := hI.rootsE
    omega
  refine ⟨hgap, hle, ?_⟩
  intro hkept
  have hlen := hI.permP.length_eq
  rw [List.length_append, hkept] at hlen
  rw [hperm.length_eq, init_walls_length m n hm hn] at hlen
  simp only [List.length_nil] at hlen
  omega

theorem init_walls_enumeration_witness :
    2 ≤ 2 ∧ (init_walls 2 2).length = (2 - 1) * (2 * 2 - 1) + 2 * (2 - 1) :=
  ⟨by decide, (init_walls_enumeration 2 2 (by decide) (by decide) (by decide) (by decide)).1⟩

theorem unify_merges_components_witness :
    (0 : Nat) ≠ 1 ∧
    (∃ o r, ((o = 1 ∧ r = 0) ∨ (o = 0 ∧ r = 1))
      ∧ (-(cellAt [-1, -1] o)) ≤ (-(cellAt [-1, -1] r))
      ∧ cellAt (unify [-1, -1] 0 1) o = (r : Int)
      ∧ (-(cellAt (unify [-1, -1] 0 1) r)) = (-(cellAt [-1, -1] 0)) + (-(cellAt [-1, -1] 1))
      ∧ cellAt (unify [-1, -1] 0 1) r < 0
      ∧ Reaches (unify [-1, -1] 0 1) 0 r ∧ Reaches (unify [-1, -1] 0 1) 1 r
      ∧ (∀ w, w ≠ o → w ≠ r → cellAt (unify [-1, -1] 0 1) w = cellAt [-1, -1] w)) :=
  ⟨by decide, unify_merges_components [-1, -1] 0 1 (by decide) (by decide) (by decide)
    (by decide) (by decide)⟩

theorem base_resolves_witness :
    (0 : Nat) < [(1 : Int), 2, -3, -1].length ∧
    (Reaches [(1 : Int), 2, -3, -1] 0 (base [(1 : Int), 2, -3, -1] 0).1
     ∧ cellAt [(1 : Int), 2, -3, -1] (base [(1 : Int), 2, -3, -1] 0).1 < 0
     ∧ (base [(1 : Int), 2, -3, -1] 0).2.length = [(1 : Int), 2, -3, -1].length
     ∧ (∀ y, ChainVisited [(1 : Int), 2, -3, -1] 0 y →
         cellAt (base [(1 : Int), 2, -3, -1] 0).2 y = ((base [(1 : Int), 2, -3, -1] 0).1 : Int))
     ∧ (∀ y, ¬ ChainVisited [(1 : Int), 2, -3, -1] 0 y →
         cellAt (base [(1 : Int), 2, -3, -1] 0).2 y = cellAt [(1 : Int), 2, -3, -1] y)) := by
  have h2 : Reaches [(1 : Int), 2, -3, -1] 2 2 := .root (by decide)
  have h1 : Reaches [(1 : Int), 2, -3, -1] 1 2 := .step (by decide) h2
  have h0 : Reaches [(1 : Int), 2, -3, -1] 0 2 := .step (by decide) h1
  have h3 : Reaches [(1 : Int), 2, -3, -1] 3 3 := .root (by decide)
  refine ⟨by decide, base_resolves [(1 : Int), 2, -3, -1] 0 (by decide) ?_ (by decide)⟩
  intro w hw
  have hw4 : w < 4 := hw
  interval_cases w
  · exact ⟨2, h0⟩
  · exact ⟨2, h1⟩
  · exact ⟨2, h2⟩
  · exact ⟨3, h3⟩

theorem analyse_one_child_second_witness :
    (analyse (.mk 1 [])).length < (analyse (.mk 1 [])).distance + 2
    ∧ (analyse (.mk 0 [.mk 1 []])).second = 0 :=
  ⟨by decide, analyse_one_child_second 0 (.mk 1 []) (by decide)⟩

/-- C4 counterexample: after analysing a star whose root has the three leaf
children 1, 2, 3 (so k = 3), a leaf's own `distance` field is 0, not the
claimed k; the branching-weighted depth k is held by the root's field. -/
theorem analyse_star_counterexample :
    (analyse (.mk 1 [])).distance = 0
    ∧ (analyse (.mk 1 [])).distance ≠ 3
    ∧ (analyse (.mk 0 [.mk 1 [], .mk 2 [], .mk 3 []])).distance = 3 := by
  decide

theorem create_maze_spanning_tree_witness :
    (init_walls 2 2).Perm (init_walls 2 2)
    ∧ nroots (create_maze 2 (2 * 2) (init_walls 2 2)).cells = 1 :=
  ⟨List.Perm.refl _,
    (@create_maze_spanning_tree 2 2 (by decide) (by decide) (by decide) (by decide)
      (init_walls 2 2) (List.Perm.refl _) (@grid_conn 2 2 (by decide))).1⟩

theorem create_maze_keeps_a_wall_witness :
    2 ≤ 2 ∧ (create_maze 2 (2 * 2) (init_walls 2 2)).kept ≠ [] :=
  ⟨by decide,
    (@create_maze_keeps_a_wall 2 2 (by decide) (by decide) (by decide) (by decide)
      (init_walls 2 2) (List.Perm.refl _)).2.2⟩
